import Mathlib

/-!
# Verification of the indie-blog-reader crawl core

A shallow embedding, in Lean 4, of the crawl-frontier / classification core of
the `indie-blog-reader` repository (`Independent Blog Circles/scripts/*.py`),
together with proofs and refutations of the specification's claims about it.

Strings are modelled as `List Char` internally (Python `str` is a sequence of
code points), with `String` wrappers at the API boundary.  Python's
`urllib.parse.urlsplit` / `urlparse` / `urljoin` are embedded following the
CPython implementation (`Lib/urllib/parse.py`, CPython 3.10+): WHATWG unsafe
byte removal, scheme detection, netloc splitting with the square-bracket
("Invalid IPv6 URL") validity check, fragment/query splitting, and params
splitting off the last path segment.  `ValueError` is modelled as
`Except.error`.  Three simplifications, each irrelevant to the theorems below
(which restrict to bracket-free hosts or all-ASCII inputs where it matters):
`str.lower` is modelled as ASCII `Char.toLower`; the additional validation of
*bracketed* hosts performed by CPython ≥ 3.11 (`_check_bracketed_host`) is
not modelled; and `_checknetloc`'s NFKC-normalization check — which can raise
`ValueError` for netlocs containing non-ASCII characters whose NFKC form
introduces one of `/?#@:`, and returns immediately for ASCII netlocs — is not
modelled, so every totality statement below carries an all-ASCII hypothesis.
-/

/-- ASCII lowering of a Python string (models `str.lower` on the ASCII range). -/
def lowerL (l : List Char) : List Char := l.map Char.toLower

/-- The bytes CPython's `urlsplit` removes anywhere in the URL
(`_UNSAFE_URL_BYTES_TO_REMOVE = ["\t", "\r", "\n"]`). -/
def isUnsafeByte (c : Char) : Bool := c = '\t' || c = '\r' || c = '\n'

/-- WHATWG C0 control or space, stripped from the left of the URL by `urlsplit`. -/
def isC0OrSpace (c : Char) : Bool := c.toNat ≤ 0x20

/-- The characters that terminate the network-location part (`_splitnetloc`
stops at the first of `/?#`). -/
def isNetlocDelim (c : Char) : Bool := c = '/' || c = '?' || c = '#'

/-- Characters allowed in a scheme (`scheme_chars` in CPython). -/
def isSchemeChar (c : Char) : Bool :=
  c.isAlpha || c.isDigit || c = '+' || c = '-' || c = '.'

/-- Scheme detection of `urlsplit`: if the text up to the first `:` is a valid
scheme (nonempty, starts with an ASCII letter, all scheme chars), return it
lowercased together with the remainder; otherwise no scheme is split off. -/
def splitScheme (l : List Char) : Option (List Char × List Char) :=
  let pre := l.takeWhile (· ≠ ':')
  if pre.length < l.length && !pre.isEmpty &&
      (match l with | c :: _ => c.isAlpha | [] => false) && pre.all isSchemeChar
  then some (lowerL pre, l.drop (pre.length + 1))
  else none

/-- `url.split(c, 1)` for a single character: `(before, after)`, where
`after = []` when `c` does not occur (Python then leaves the second part `''`). -/
def splitAtFirst (c : Char) (l : List Char) : List Char × List Char :=
  (l.takeWhile (· ≠ c), (l.dropWhile (· ≠ c)).drop 1)

/-- The five components returned by `urlsplit`. -/
structure SplitResult where
  scheme : List Char
  netloc : List Char
  path : List Char
  query : List Char
  fragment : List Char
  deriving Repr, DecidableEq

/-- A character that survives `urlsplit`'s unsafe-byte removal. -/
def isCleanChar (c : Char) : Bool := !isUnsafeByte c

/-- The input cleaning performed at the top of `urlsplit`: strip leading C0
control / space characters, then remove every tab, CR and LF. -/
def urlsplitClean (url : List Char) : List Char :=
  (url.dropWhile isC0OrSpace).filter isCleanChar

/-- `urlsplit` after input cleaning: scheme detection, netloc splitting (with
the "Invalid IPv6 URL" bracket check), then fragment and query splitting. -/
def urlsplitMain (default : List Char) (url : List Char) : Except Unit SplitResult :=
  let (scheme, rest) :=
    match splitScheme url with
    | some (s, r) => (s, r)
    | none => (default, url)
  if rest.take 2 = ['/', '/'] then
    let netloc := (rest.drop 2).takeWhile (fun c => !isNetlocDelim c)
    let rest2 := (rest.drop 2).dropWhile (fun c => !isNetlocDelim c)
    if netloc.contains '[' != netloc.contains ']' then .error ()
    else
      let (beforeFrag, fragment) := splitAtFirst '#' rest2
      let (path, query) := splitAtFirst '?' beforeFrag
      .ok ⟨scheme, netloc, path, query, fragment⟩
  else
    let (beforeFrag, fragment) := splitAtFirst '#' rest
    let (path, query) := splitAtFirst '?' beforeFrag
    .ok ⟨scheme, [], path, query, fragment⟩

/-- Embedding of CPython's `urllib.parse.urlsplit(url, scheme=default)` (with
`allow_fragments=True`).  `Except.error ()` models the `ValueError("Invalid
IPv6 URL")` raised when the netloc contains `[` without `]` or vice versa. -/
def urlsplitPy (default : List Char) (url : List Char) : Except Unit SplitResult :=
  urlsplitMain default (urlsplitClean url)

/-- The six components of `urlparse` (path params split off the last segment). -/
structure ParseResult where
  scheme : List Char
  netloc : List Char
  path : List Char
  params : List Char
  query : List Char
  fragment : List Char
  deriving Repr, DecidableEq

/-- CPython's `_splitparams`: split `;params` off the last path segment (only
called when `;` occurs in the path). -/
def splitParams (path : List Char) : List Char × List Char :=
  let revTail := path.reverse.takeWhile (· ≠ '/')
  if revTail.length = path.length then
    -- no '/' in path: split at the first ';'
    splitAtFirst ';' path
  else
    let pre := path.take (path.length - revTail.length)  -- up to and including last '/'
    let lastSeg := revTail.reverse
    if lastSeg.contains ';' then
      let (beforeSemi, params) := splitAtFirst ';' lastSeg
      (pre ++ beforeSemi, params)
    else (path, [])

/-- The path after `urlparse`'s params split (`_splitparams` is only invoked
when `;` occurs in the path). -/
def paramCut (p : List Char) : List Char :=
  if p.contains ';' then (splitParams p).1 else p

/-- The params component produced by `urlparse`'s params split. -/
def paramRest (p : List Char) : List Char :=
  if p.contains ';' then (splitParams p).2 else []

/-- Embedding of `urllib.parse.urlparse(url, scheme=default)`.  One documented
simplification: CPython splits params only when the scheme is in
`uses_params`; this embedding splits them for every scheme.  The two agree on
all `http`/`https` URLs — the only schemes `normalize_url` can feed in — and
every other use in this development reads only the netloc. -/
def urlparsePy (default : List Char) (url : List Char) : Except Unit ParseResult :=
  match urlsplitPy default url with
  | .error e => .error e
  | .ok s => .ok ⟨s.scheme, s.netloc, paramCut s.path, paramRest s.path, s.query, s.fragment⟩

/-- `"http://"` as a character list. -/
def httpSlashes : List Char := "http://".data

/-- `"https://"` as a character list. -/
def httpsSlashes : List Char := "https://".data

/-- Strip one leading `"www."` (models `host[4:]` after the `startswith` test). -/
def stripWww (l : List Char) : List Char :=
  if "www.".data.isPrefixOf l then l.drop 4 else l

/-- `path.rstrip('/')`: remove all trailing slashes. -/
def rstripSlash (l : List Char) : List Char :=
  (l.reverse.dropWhile (· = '/')).reverse

/-- Embedding of `utils.normalize_url` (identical copies live in
`deduplicate.py` and `dedupe_data.py`): empty input maps to the empty string;
otherwise default the scheme to `https://`, call `urlparse` (so `;params` is
split off the last path segment — the scheme here is always `http`/`https`,
both in `uses_params`), lowercase the host, strip a leading `www.`, strip
trailing slashes from the (params-free) path, and rebuild
`f"{scheme}://{host}{path}"`.  `none` models the propagated `ValueError` from
`urlparse`. -/
def normalizeList (l : List Char) : Option (List Char) :=
  if l = [] then some [] else
  match urlparsePy []
      (if httpSlashes.isPrefixOf l || httpsSlashes.isPrefixOf l
       then l else httpsSlashes ++ l) with
  | .error _ => none
  | .ok p => some (p.scheme ++ "://".data ++ stripWww (lowerL p.netloc) ++ rstripSlash p.path)

/-- `normalize_url` on `String`s. -/
def normalize_url (s : String) : Option String :=
  (normalizeList s.data).map fun l => ⟨l⟩

/-! ### Component views of the relative part of a `scheme://…` URL

For a URL of shape `scheme ++ "://" ++ r` these give the netloc, the remainder
after the netloc, and the path / query / fragment that `urlsplitMain` computes
from `r`.  They exist so the parser lemmas below have compact statements. -/

/-- The netloc of the relative part `r`: everything up to the first `/?#`. -/
def netlocOf (r : List Char) : List Char := r.takeWhile (fun c => !isNetlocDelim c)

/-- The remainder of the relative part after the netloc. -/
def afterNetloc (r : List Char) : List Char := r.dropWhile (fun c => !isNetlocDelim c)

/-- The path component: the remainder cut at the first `#`, then at the first `?`. -/
def pathOf (r : List Char) : List Char :=
  ((afterNetloc r).takeWhile (· ≠ '#')).takeWhile (· ≠ '?')

/-- The query component derived from the relative part. -/
def queryOf (r : List Char) : List Char :=
  ((((afterNetloc r).takeWhile (· ≠ '#')).dropWhile (· ≠ '?')).drop 1)

/-- The fragment component derived from the relative part. -/
def fragOf (r : List Char) : List Char :=
  (((afterNetloc r).dropWhile (· ≠ '#')).drop 1)

/-- The host part of a produced key `scheme://host[path]`: skip to the first
`:`, drop `"://"`, and take up to the first `/?#`. -/
def keyHost (k : List Char) : List Char :=
  ((k.dropWhile (· ≠ ':')).drop 3).takeWhile (fun c => !isNetlocDelim c)

/-- A character acceptable inside a netloc: not a netloc delimiter, and not an
unsafe byte (those are removed before the netloc is cut). -/
def isHostChar (c : Char) : Bool := !isNetlocDelim c && !isUnsafeByte c

/-! ### The frontier queue: `utils.add_to_queue`

`add_to_queue(urls)` loads the seen set and the current queue, then appends
each normalized input that is truthy (non-empty), unseen, and not already in
the (growing) queue set; survivors are appended to the queue file and
returned.  The seen set and loaded queue become parameters here.  A
`ValueError` escaping `normalize_url` aborts the whole call (modelled as
`none`: nothing is appended and nothing returned). -/

/-- The `for url in urls:` loop body of `add_to_queue`, accumulating
`new_urls`; `cur` is the mutable `current_queue` set. -/
def addLoop (seen : List String) (cur : List String) : List String → Option (List String)
  | [] => some []
  | url :: rest =>
      match normalize_url url with
      | none => none
      | some n =>
          if n ≠ "" ∧ n ∉ seen ∧ n ∉ cur then
            (addLoop seen (n :: cur) rest).map (fun tail => n :: tail)
          else addLoop seen cur rest

/-- Embedding of `utils.add_to_queue`: returns the queue contents after the
append together with the accepted (returned) subset. -/
def add_to_queue (seen queue urls : List String) : Option (List String × List String) :=
  (addLoop seen queue urls).map (fun newUrls => (queue ++ newUrls, newUrls))

/-- Modelled from the claim's words, for comparison with `add_to_queue`: the
claim says the accepted keys are exactly those normalized inputs "that are
neither in the seen set nor already present in the queue nor duplicated
earlier in the same input list" — with no requirement that the key be
non-empty. -/
def enqueueAcceptedSpec (seen : List String) (cur : List String) :
    List String → Option (List String)
  | [] => some []
  | url :: rest =>
      match normalize_url url with
      | none => none
      | some n =>
          if n ∉ seen ∧ n ∉ cur then
            (enqueueAcceptedSpec seen (n :: cur) rest).map (fun tail => n :: tail)
          else enqueueAcceptedSpec seen cur rest

/-! ### The fetcher: `scraper.fetch_url` and `fast_scraper.fetch_url`

The network is modelled as an oracle mapping the attempt number to that
attempt's outcome.  `requests.get` raises `ConnectionError` / `Timeout` for
transport failures, and `response.raise_for_status()` raises `HTTPError` for
a 4xx/5xx status — all three are subclasses of `requests.RequestException`,
which is exactly what the `except` clause in `scraper.fetch_url` catches. -/

/-- Outcome of one `requests.get(...)` + `raise_for_status()` attempt. -/
inductive FetchOutcome where
  | ok (body : String)
  | connError (msg : String)
  | timeout (msg : String)
  | httpError (status : Nat) (msg : String)
  deriving Repr, DecidableEq

/-- `str(e)` for the raised `RequestException`. -/
def FetchOutcome.errMsg : FetchOutcome → String
  | .ok _ => ""
  | .connError m => m
  | .timeout m => m
  | .httpError _ m => m

/-- Whether the attempt succeeded (no exception raised). -/
def FetchOutcome.isOk : FetchOutcome → Bool
  | .ok _ => true
  | _ => false

/-- Result of `fetch_url`: `(html, headers, None)` on success, else
`(None, None, str(e))`. -/
inductive FetchResult where
  | success (body : String)
  | failure (err : String)
  deriving Repr, DecidableEq

/-- `MAX_RETRIES = 2` in `scraper.py`. -/
def MAX_RETRIES : Nat := 2

/-- The `for attempt in range(MAX_RETRIES):` loop of `scraper.fetch_url`,
with the remaining iteration count as structural fuel.  Any
`RequestException` (HTTP errors included) on a non-final attempt leads to
`time.sleep(1)` and a retry; on the final attempt its message is returned. -/
def fetchGo (net : Nat → FetchOutcome) : Nat → Nat → FetchResult
  | _, 0 => .failure "Max retries exceeded"
  | attempt, rem + 1 =>
      match net attempt with
      | .ok body => .success body
      | e =>
          if attempt < MAX_RETRIES - 1 then fetchGo net (attempt + 1) rem
          else .failure e.errMsg

/-- Embedding of `scraper.fetch_url`. -/
def fetch_url (net : Nat → FetchOutcome) : FetchResult := fetchGo net 0 MAX_RETRIES

/-- Embedding of `fast_scraper.fetch_url`: a single attempt, no retry of any
kind. -/
def fast_fetch_url (net : Nat → FetchOutcome) : FetchResult :=
  match net 0 with
  | .ok body => .success body
  | e => .failure e.errMsg

/-- A network where the first attempt yields HTTP 404 and the second
succeeds: distinguishes "HTTP errors are retried" from "they fail fast". -/
def net404 : Nat → FetchOutcome := fun n =>
  if n = 0 then .httpError 404 "404 Client Error: Not Found" else .ok "<html>recovered</html>"

/-- A network failing both attempts with connection errors. -/
def netFail : Nat → FetchOutcome := fun n =>
  if n = 0 then .connError "conn0" else .connError "conn1"

/-! ### The deduplication passes: `deduplicate.py` and `dedupe_data.py`

A node record, restricted to the fields the merge policies inspect.  `name`
is a `String` where `""` stands for both Python `None` and the empty string
(both falsy, and `not existing.get('name')` only tests truthiness);
missing `ssg` (read with `.get('ssg', 'unknown')`) is likewise `"unknown"`. -/
structure BlogRec where
  url : String
  name : String
  ssg : String
  scrape_status : String
  deriving Repr, DecidableEq

/-- The duplicate-key merge of `deduplicate.deduplicate_blogs` (lines 59-72):
a cascade of wholesale replacements — status upgrade first, then
name-presence, then SSG-known-ness; otherwise the existing record is kept. -/
def mergeBlog (existing blog : BlogRec) : BlogRec :=
  if existing.scrape_status = "failed" ∧ blog.scrape_status = "complete" then blog
  else if existing.name = "" ∧ blog.name ≠ "" then blog
  else if existing.ssg = "unknown" ∧ blog.ssg ≠ "unknown" then blog
  else existing

/-- The duplicate-key merge of `dedupe_data.dedupe_blogs` (lines 53-64): the
same cascade but without the name-presence branch and with
"not complete" instead of "failed" in the status test. -/
def mergeBlogData (existing blog : BlogRec) : BlogRec :=
  if blog.scrape_status = "complete" ∧ existing.scrape_status ≠ "complete" then blog
  else if blog.ssg ≠ "unknown" ∧ existing.ssg = "unknown" then blog
  else existing

/-- Insert one record into the ordered association list that models the
Python dict `blogs_by_url` (insertion order preserved; an existing key is
updated in place with the merge function). -/
def dedupeInsert (merge : BlogRec → BlogRec → BlogRec)
    (m : List (String × BlogRec)) (key : String) (blog : BlogRec) :
    List (String × BlogRec) :=
  match m with
  | [] => [(key, blog)]
  | (k, e) :: rest =>
      if k = key then (k, merge e blog) :: rest
      else (k, e) :: dedupeInsert merge rest key blog

/-- The record-collection loop shared by both deduplication passes: records
whose url normalizes to `""` are skipped, records with equal normalized keys
are merged with the given policy; a `ValueError` from `normalize_url`
propagates (the `except` clause catches only `json.JSONDecodeError`). -/
def dedupeFold (merge : BlogRec → BlogRec → BlogRec)
    (acc : List (String × BlogRec)) : List BlogRec → Option (List (String × BlogRec))
  | [] => some acc
  | blog :: rest =>
      match normalize_url blog.url with
      | none => none
      | some url =>
          if url = "" then dedupeFold merge acc rest
          else dedupeFold merge (dedupeInsert merge acc url blog) rest

/-- Embedding of the record-merging part of `deduplicate.deduplicate_blogs`. -/
def deduplicate_blogs (blogs : List BlogRec) : Option (List (String × BlogRec)) :=
  dedupeFold mergeBlog [] blogs

/-- Embedding of the record-merging part of `dedupe_data.dedupe_blogs`. -/
def dedupe_blogs (blogs : List BlogRec) : Option (List (String × BlogRec)) :=
  dedupeFold mergeBlogData [] blogs

/-- A failed record for key `https://k.example` (discovered as `k.example`). -/
def failedRecK : BlogRec := ⟨"k.example", "", "unknown", "failed"⟩

/-- A later complete record for the same key. -/
def completeRecK : BlogRec := ⟨"https://k.example/", "My Blog", "hugo", "complete"⟩

/-! ### A regex engine for the patterns of `detectors.py`

`detectors.py` classifies HTML with `re.search` / `re.findall` / `re.finditer`
over a fixed set of patterns.  The engine below implements exactly the regex
fragment those patterns use — literals, character classes, `.`, alternation,
greedy/lazy `* + ?`, one capturing group — with Python's backtracking
semantics: leftmost match, alternation tries the left branch first, greedy
repetition tries the longest continuation first, lazy the shortest.
`re.IGNORECASE` is modelled by case-insensitive character predicates (ASCII
case folding, which covers every pattern in the table), `re.DOTALL` by letting
`.` match `\n`.  Repetition is fueled; every repetition body in the table
consumes at least one character, so fuel `length + 1` (as passed by
`matchAnchor`) never runs out on these patterns. -/

/-- Regular expressions: `chr p` matches one character satisfying `p`. -/
inductive Reg where
  | eps
  | chr (p : Char → Bool)
  | seq (a b : Reg)
  | alt (a b : Reg)
  | star (lazy : Bool) (a : Reg)
  | group (n : Nat) (a : Reg)

/-- Captured groups: group index paired with the captured text (the most
recent capture of an index is first, as Python keeps the last one). -/
abbrev Caps := List (Nat × List Char)

/-- One fuel layer of the backtracking matcher, in continuation-passing
style: structural recursion over the regex, with `matNext` handling one more
unrolling of a repetition at the next-lower fuel level.  `none` from the
continuation triggers backtracking. -/
def matFuel {σ : Type}
    (matNext : Reg → List Char → Caps → (List Char → Caps → Option σ) → Option σ) :
    Reg → List Char → Caps → (List Char → Caps → Option σ) → Option σ
  | .eps, s, caps, k => k s caps
  | .chr _, [], _, _ => none
  | .chr p, c :: rest, caps, k => if p c then k rest caps else none
  | .seq a b, s, caps, k =>
      matFuel matNext a s caps (fun s' caps' => matFuel matNext b s' caps' k)
  | .alt a b, s, caps, k =>
      match matFuel matNext a s caps k with
      | some r => some r
      | none => matFuel matNext b s caps k
  | .star lz a, s, caps, k =>
      if lz then
        match k s caps with
        | some r => some r
        | none => matNext a s caps (fun s' caps' => matNext (.star lz a) s' caps' k)
      else
        match matNext a s caps (fun s' caps' => matNext (.star lz a) s' caps' k) with
        | some r => some r
        | none => k s caps
  | .group n a, s, caps, k =>
      matFuel matNext a s caps (fun s' caps' =>
        k s' ((n, s.take (s.length - s'.length)) :: caps'))

/-- The fueled matcher: each repetition iteration consumes one fuel level;
with the fuel exhausted a repetition can still match zero occurrences. -/
def matRe {σ : Type} : Nat → Reg → List Char → Caps →
    (List Char → Caps → Option σ) → Option σ
  | 0 => matFuel (fun _ _ _ _ => none)
  | fuel + 1 => matFuel (matRe fuel)

/-- Try to match `r` anchored at the start of `s`; on success return the rest
of the input and the captures. -/
def matchAnchor (r : Reg) (s : List Char) : Option (List Char × Caps) :=
  matRe (s.length + 1) r s [] (fun rest caps => some (rest, caps))

/-- `re.search`: try the anchor at each successive position (leftmost match);
on success return `(matched text, rest of input, captures)`. -/
def reFind (r : Reg) : List Char → Option (List Char × List Char × Caps)
  | [] =>
      match matchAnchor r [] with
      | some (rest, caps) => some ([], rest, caps)
      | none => none
  | c :: t =>
      match matchAnchor r (c :: t) with
      | some (rest, caps) =>
          some ((c :: t).take ((c :: t).length - rest.length), rest, caps)
      | none => reFind r t

/-- Whether `re.search` finds a match. -/
def reTest (r : Reg) (s : List Char) : Bool := (reFind r s).isSome

/-- `match.group(n)` (empty for an unset group, which never happens for the
patterns used here). -/
def reGroup (n : Nat) (caps : Caps) : List Char :=
  match caps.find? (fun e => e.1 == n) with
  | some e => e.2
  | none => []

/-- The scan loop of `re.findall` / `re.finditer`: repeated leftmost search,
resuming after each match (one position further on an empty match). -/
def reFindAllAux (r : Reg) : Nat → List Char → List (List Char × Caps)
  | 0, _ => []
  | fuel + 1, s =>
      match reFind r s with
      | none => []
      | some (m, rest, caps) =>
          if m.isEmpty then
            (m, caps) ::
              (match rest with
               | [] => []
               | _ :: t => reFindAllAux r fuel t)
          else (m, caps) :: reFindAllAux r fuel rest

/-- `re.findall` returning, for each match, the matched text and captures. -/
def reFindAll (r : Reg) (s : List Char) : List (List Char × Caps) :=
  reFindAllAux r (s.length + 1) s

/-- A literal character, optionally case-insensitive. -/
def rchar (ci : Bool) (c : Char) : Reg :=
  .chr (fun x => if ci then x.toLower = c.toLower else x = c)

/-- A literal string, case-insensitive when `ci` (models `re.IGNORECASE`). -/
def li (s : String) : Reg := s.data.foldr (fun c acc => .seq (rchar true c) acc) .eps

/-- A case-sensitive literal string. -/
def lit (s : String) : Reg := s.data.foldr (fun c acc => .seq (rchar false c) acc) .eps

/-- `.` — any character except newline (newline too under `re.DOTALL`). -/
def rdot (dotall : Bool) : Reg := .chr (fun c => dotall || c ≠ '\n')

/-- A positive character class `[…]`. -/
def rcls (cs : String) : Reg := .chr (fun c => cs.data.contains c)

/-- A negated character class `[^…]`. -/
def rncls (cs : String) : Reg := .chr (fun c => !cs.data.contains c)

/-- `\d` (ASCII model of the digit class). -/
def rdigit : Reg := .chr Char.isDigit

/-- `\s` (ASCII model of the whitespace class). -/
def rspace : Reg :=
  .chr (fun c => c = ' ' || c = '\t' || c = '\n' || c = '\r' || c = '\x0b' || c = '\x0c')

/-- Greedy `*`. -/
def rstarG (a : Reg) : Reg := .star false a

/-- Lazy `*?`. -/
def rstarL (a : Reg) : Reg := .star true a

/-- Greedy `+`. -/
def rplus (a : Reg) : Reg := .seq a (.star false a)

/-- Greedy `?`. -/
def ropt (a : Reg) : Reg := .alt a .eps

/-- Concatenation of a pattern list. -/
def rcat (l : List Reg) : Reg := l.foldr .seq .eps

/-- Alternation of a non-empty pattern list (left branch first). -/
def ralt : List Reg → Reg
  | [] => .chr (fun _ => false)
  | [r] => r
  | r :: rest => .alt r (ralt rest)

/-! ### The generator table `SSG_PATTERNS` of `detectors.py`

Python iterates `SSG_PATTERNS.items()` in insertion order (dicts preserve it),
so the table is an ordered list here.  Every `re.search` against these
patterns uses `re.IGNORECASE`; `li` builds a case-insensitive literal and
`anyG` is `.*`.  The `paths` entries of the source dict are never read by
`detect_ssg` and are omitted. -/

/-- `.*` (no DOTALL). -/
def anyG : Reg := rstarG (rdot false)

/-- One generator's patterns: the `meta_generator` list and the
`html_signatures` list. -/
structure SSGPat where
  meta : List Reg
  html : List Reg

/-- The quote class `["']`. -/
def quoteCls : String := "\"\x27"

def SSG_PATTERNS : List (String × SSGPat) := [
  ("hexo", ⟨[li "hexo", li "Hexo"],
    [rcat [li "Powered by", anyG, li "Hexo"],
     rcat [li "hexo-", anyG, li ".js"],
     rcat [li "hexo-", anyG, li ".css"],
     li "/lib/hexo"]⟩),
  ("hugo", ⟨[rcat [li "Hugo", rstarG rspace, rstarG (.chr (fun c => c.isDigit || c = '.'))]],
    [li "data-hugo",
     rcat [li "hugo-", anyG, li ".js"],
     li "/hugo_stats.json"]⟩),
  ("astro", ⟨[li "Astro"],
    [li "astro-island", li "astro-slot", li "/_astro/", li "data-astro"]⟩),
  ("vitepress", ⟨[li "vitepress", li "VitePress"],
    [li "vitepress", li "VPContent", li "VPDoc", li "@vitepress"]⟩),
  ("vuepress", ⟨[li "vuepress", li "VuePress"],
    [li "vuepress", li "nprogress", li "theme-container"]⟩),
  ("gatsby", ⟨[li "Gatsby"],
    [li "___gatsby", li "gatsby-", li "/page-data/"]⟩),
  ("nextjs", ⟨[li "Next.js"],
    [li "_next/", li "__NEXT_DATA__", li "next/dist"]⟩),
  ("jekyll", ⟨[li "Jekyll"],
    [li "jekyll", rcat [li "Powered by", anyG, li "Jekyll"]]⟩),
  ("wordpress", ⟨[li "WordPress"],
    [li "/wp-content/", li "/wp-includes/", li "wp-json"]⟩),
  ("typecho", ⟨[li "Typecho"],
    [li "Typecho", rcat [li "Powered by", anyG, li "Typecho"]]⟩),
  ("ghost", ⟨[li "Ghost"],
    [li "/assets/built/", li "ghost-", li "content/images"]⟩),
  ("gridea", ⟨[li "Gridea"],
    [li "Gridea", rcat [li "Powered by", anyG, li "Gridea"]]⟩),
  ("halo", ⟨[li "Halo"],
    [li "Halo", rcat [li "Powered by", anyG, li "Halo"],
     rcat [li "/themes/", anyG, li "halo"]]⟩),
  ("11ty", ⟨[li "Eleventy", li "11ty"],
    [li "eleventy", li "11ty"]⟩),
  ("nuxt", ⟨[li "Nuxt"],
    [li "__nuxt", li "nuxt", li "/_nuxt/"]⟩),
  ("zola", ⟨[li "Zola"],
    [li "zola", rcat [li "Powered by", anyG, li "Zola"]]⟩),
  ("pelican", ⟨[li "Pelican"],
    [li "pelican", rcat [li "Powered by", anyG, li "Pelican"]]⟩),
  ("mkdocs", ⟨[li "mkdocs", li "MkDocs"],
    [li "mkdocs", li "MkDocs"]⟩),
  ("docsify", ⟨[],
    [li "docsify", li "Docsify"]⟩),
  ("docusaurus", ⟨[li "Docusaurus"],
    [li "docusaurus", li "Docusaurus", li "__docusaurus"]⟩),
  ("notion", ⟨[],
    [li "notion-", li "super.so", li "notion.site"]⟩)]

/-- First meta-generator extractor of `detect_ssg`:
`<meta[^>]+name=["\']generator["\'][^>]+content=["\']([^"\']+)["\']`,
`re.IGNORECASE`. -/
def metaPat1 : Reg := rcat [li "<meta", rplus (rncls ">"), li "name=", rcls quoteCls,
  li "generator", rcls quoteCls, rplus (rncls ">"), li "content=", rcls quoteCls,
  .group 1 (rplus (rncls quoteCls)), rcls quoteCls]

/-- Second meta-generator extractor (attributes in the other order). -/
def metaPat2 : Reg := rcat [li "<meta", rplus (rncls ">"), li "content=", rcls quoteCls,
  .group 1 (rplus (rncls quoteCls)), rcls quoteCls, rplus (rncls ">"), li "name=",
  rcls quoteCls, li "generator", rcls quoteCls]

/-- The `generator` local of `detect_ssg`: the content of the
`<meta name="generator">` tag, or the empty string. -/
def extract_generator (html : List Char) : List Char :=
  match reFind metaPat1 html with
  | some (_, _, caps) => reGroup 1 caps
  | none =>
      match reFind metaPat2 html with
      | some (_, _, caps) => reGroup 1 caps
      | none => []

/-- Does one table entry match?  `detect_ssg` checks the entry's meta patterns
against the extracted generator string, then its html signatures against the
whole page — both inside the same loop iteration. -/
def ssgMatches (gen html : List Char) (pat : SSGPat) : Bool :=
  pat.meta.any (fun r => reTest r gen) || pat.html.any (fun r => reTest r html)

/-- The `for ssg_name, patterns in SSG_PATTERNS.items():` loop of
`detect_ssg`: for each entry in table order, first its meta patterns, then its
html signatures; the first entry with any match wins. -/
def detectSSGGo (gen html : List Char) : List (String × SSGPat) → String
  | [] => "unknown"
  | (name, pat) :: rest =>
      if pat.meta.any (fun r => reTest r gen) then name
      else if pat.html.any (fun r => reTest r html) then name
      else detectSSGGo gen html rest

/-- Embedding of `detectors.detect_ssg` (the unused `headers` parameter and
the unused `html_lower` local are dropped). -/
def detect_ssg (html : String) : String :=
  detectSSGGo (extract_generator html.data) html.data SSG_PATTERNS

/-! ### The comment-system table `COMMENT_PATTERNS` and
`detect_comment_system` -/

/-- One comment platform's entry. -/
structure CommentPat where
  signatures : List Reg
  storage : String
  identity : String

def COMMENT_PATTERNS : List (String × CommentPat) := [
  ("giscus", ⟨[li "giscus.app", li "data-repo=", li "class=\"giscus\""],
    "GitHub Discussions", "GitHub"⟩),
  ("waline", ⟨[li "waline", li "Waline", li "data-server-url", li "waline.js"],
    "self-hosted (Vercel/LeanCloud)", "anonymous/social login"⟩),
  ("twikoo", ⟨[li "twikoo", li "Twikoo", li "envId"],
    "self-hosted (Vercel/Tencent Cloud)", "anonymous/social login"⟩),
  ("artalk", ⟨[li "artalk", li "Artalk", li "Artalk.init"],
    "self-hosted", "anonymous/email"⟩),
  ("disqus", ⟨[li "disqus.com", li "disqus_shortname", li "disqus_thread"],
    "Disqus", "Disqus account"⟩),
  ("utterances", ⟨[li "utteranc.es", li "utterances"],
    "GitHub Issues", "GitHub"⟩),
  ("gitalk", ⟨[li "gitalk", li "Gitalk"],
    "GitHub Issues", "GitHub"⟩),
  ("valine", ⟨[li "valine", li "Valine", li "leancloud"],
    "LeanCloud", "anonymous"⟩),
  ("cusdis", ⟨[li "cusdis", li "Cusdis"],
    "self-hosted", "anonymous"⟩),
  ("isso", ⟨[li "isso", li "/isso/"],
    "self-hosted (SQLite)", "anonymous"⟩),
  ("remark42", ⟨[li "remark42", li "remark_config"],
    "self-hosted", "anonymous/social login"⟩),
  ("commento", ⟨[li "commento", li "commento.io"],
    "Commento/self-hosted", "anonymous/social login"⟩),
  ("discuss", ⟨[li "discuss.", li "#discuss"],
    "self-hosted", "various"⟩)]

/-- The generic comment-section marker `comment|评论|留言` (`re.IGNORECASE`). -/
def genericCommentPat : Reg := ralt [li "comment", li "评论", li "留言"]

/-- The result dict of `detect_comment_system`. -/
structure CommentResult where
  type : String
  storage : Option String
  identity : Option String
  deriving Repr, DecidableEq

/-- The signature-table loop of `detect_comment_system`. -/
def detectCommentGo (html : List Char) : List (String × CommentPat) → Option CommentResult
  | [] => none
  | (name, pat) :: rest =>
      if pat.signatures.any (fun r => reTest r html) then
        some ⟨name, some pat.storage, some pat.identity⟩
      else detectCommentGo html rest

/-- Embedding of `detectors.detect_comment_system`: first platform whose
signature matches wins; otherwise `"unknown"` when a generic comment marker is
present and `"none"` when not. -/
def detect_comment_system (html : String) : CommentResult :=
  match detectCommentGo html.data COMMENT_PATTERNS with
  | some r => r
  | none =>
      if reTest genericCommentPat html.data then ⟨"unknown", none, none⟩
      else ⟨"none", none, none⟩

/-! ### `count_articles` -/

/-- `(post|posts|article|blog|archives?)` — the capturing group of the first
post pattern. -/
def postKindGroup : Reg :=
  .group 1 (ralt [li "post", li "posts", li "article", li "blog",
    rcat [li "archive", ropt (li "s")]])

/-- `href=["\'][^"\']*/(post|posts|article|blog|archives?)/[^"\']*["\']`. -/
def postPat1 : Reg := rcat [li "href=", rcls quoteCls, rstarG (rncls quoteCls),
  li "/", postKindGroup, li "/", rstarG (rncls quoteCls), rcls quoteCls]

/-- `href=["\'][^"\']*\d{4}/\d{2}/[^"\']*["\']` (date-based URLs). -/
def postPat2 : Reg := rcat [li "href=", rcls quoteCls, rstarG (rncls quoteCls),
  rdigit, rdigit, rdigit, rdigit, li "/", rdigit, rdigit, li "/",
  rstarG (rncls quoteCls), rcls quoteCls]

/-- `href=["\'][^"\']*\d{4}-\d{2}-\d{2}[^"\']*["\']` (date in the filename). -/
def postPat3 : Reg := rcat [li "href=", rcls quoteCls, rstarG (rncls quoteCls),
  rdigit, rdigit, rdigit, rdigit, li "-", rdigit, rdigit, li "-", rdigit, rdigit,
  rstarG (rncls quoteCls), rcls quoteCls]

/-- What each `re.findall(pattern, html)` yields, in loop order: the group-1
capture for the one-group pattern, the whole match for the group-less ones. -/
def postItems (html : List Char) : List (List Char) :=
  (reFindAll postPat1 html).map (fun x => reGroup 1 x.2) ++
  (reFindAll postPat2 html).map Prod.fst ++
  (reFindAll postPat3 html).map Prod.fst

/-- The dedup-and-count loop over pattern matches (`seen_urls` is shared
across all three patterns). -/
def postLoop : List (List Char) → List (List Char) → Nat → Nat
  | [], _, count => count
  | m :: rest, seen, count =>
      if m ∈ seen then postLoop rest seen count
      else postLoop rest (m :: seen) (count + 1)

/-- The explicit-count patterns of `count_articles`, in list order. -/
def COUNT_PATTERNS : List Reg := [
  rcat [li "共", rstarG rspace, .group 1 (rplus rdigit), rstarG rspace, li "篇"],
  rcat [.group 1 (rplus rdigit), rstarG rspace, li "篇文章"],
  rcat [.group 1 (rplus rdigit), rstarG rspace, li "article", ropt (li "s")],
  rcat [.group 1 (rplus rdigit), rstarG rspace, li "post", ropt (li "s")],
  rcat [li "总计", rstarL (rdot false), .group 1 (rplus rdigit), rstarL (rdot false),
    li "篇"]]

/-- `int(...)` of a captured digit run. -/
def toNatDigits (l : List Char) : Nat :=
  l.foldl (fun acc c => acc * 10 + (c.toNat - 48)) 0

/-- The explicit-count loop: each matching pattern's value replaces the
running count when strictly larger. -/
def explicitLoop (html : List Char) : List Reg → Nat → Nat
  | [], count => count
  | q :: rest, count =>
      match reFind q html with
      | some (_, _, caps) =>
          explicitLoop html rest
            (if toNatDigits (reGroup 1 caps) > count then toNatDigits (reGroup 1 caps)
             else count)
      | none => explicitLoop html rest count

/-- Embedding of `detectors.count_articles` (the `base_url` parameter is
unused by the source as well). -/
def count_articles (html : String) (base_url : String) : Option Nat :=
  let count := postLoop (postItems html.data) [] 0
  let count := explicitLoop html.data COUNT_PATTERNS count
  if count > 0 then some count else none

/-- Specification-side view of strategy (b): the largest explicit textual
count among the matching count patterns (0 when none match). -/
def explicitBest (html : List Char) : Nat :=
  (COUNT_PATTERNS.filterMap
    (fun q => (reFind q html).map (fun x => toNatDigits (reGroup 1 x.2.2)))).foldr max 0

/-! ### `urllib.parse.urljoin` (CPython 3.11) -/

/-- `url.split(c)`. -/
def splitOnChar (c : Char) : List Char → List (List Char)
  | [] => [[]]
  | x :: rest =>
      let r := splitOnChar c rest
      if x = c then [] :: r
      else
        match r with
        | h :: t => (x :: h) :: t
        | [] => [[x]]

/-- `uses_relative` from `urllib.parse`. -/
def uses_relative : List (List Char) :=
  ["", "ftp", "http", "gopher", "nntp", "imap", "wais", "file", "https", "shttp",
   "mms", "prospero", "rtsp", "rtsps", "rtspu", "sftp", "svn", "svn+ssh", "ws",
   "wss"].map String.data

/-- `uses_netloc` from `urllib.parse`. -/
def uses_netloc : List (List Char) :=
  ["", "ftp", "http", "gopher", "nntp", "telnet", "imap", "wais", "file", "mms",
   "https", "shttp", "snews", "prospero", "rtsp", "rtsps", "rtspu", "rsync",
   "svn", "svn+ssh", "sftp", "nfs", "git", "git+ssh", "ws", "wss"].map String.data

/-- `urlunsplit`. -/
def urlunsplit (scheme netloc url query fragment : List Char) : List Char :=
  let url := if netloc ≠ [] ∨ (url ≠ [] ∧ url.take 2 = ['/', '/']) then
      (let url := if url ≠ [] ∧ url.take 1 ≠ ['/'] then '/' :: url else url
       '/' :: '/' :: (netloc ++ url))
    else url
  let url := if scheme ≠ [] then scheme ++ ':' :: url else url
  let url := if query ≠ [] then url ++ '?' :: query else url
  if fragment ≠ [] then url ++ '#' :: fragment else url

/-- `urlunparse`. -/
def urlunparse (scheme netloc url params query fragment : List Char) : List Char :=
  urlunsplit scheme netloc (if params ≠ [] then url ++ ';' :: params else url)
    query fragment

/-- `segments[1:-1] = filter(None, segments[1:-1])`: drop empty interior
segments, keeping the first and last. -/
def filterInteriorAux : List (List Char) → List (List Char)
  | [] => []
  | [x] => [x]
  | x :: rest => if x.isEmpty then filterInteriorAux rest else x :: filterInteriorAux rest

def filterInterior : List (List Char) → List (List Char)
  | [] => []
  | x :: rest => x :: filterInteriorAux rest

/-- The `..` / `.` resolution loop over the segments (`acc` is the resolved
stack, most recent first; popping an empty stack is ignored). -/
def resolveSegs : List (List Char) → List (List Char) → List (List Char)
  | [], acc => acc.reverse
  | seg :: rest, acc =>
      if seg = ['.', '.'] then resolveSegs rest (acc.drop 1)
      else if seg = ['.'] then resolveSegs rest acc
      else resolveSegs rest (seg :: acc)

/-- Embedding of `urllib.parse.urljoin` (CPython 3.11, `allow_fragments`
left at its default).  `Except.error` models a `ValueError` escaping from
`urlparse`. -/
def urljoinPy (base url : List Char) : Except Unit (List Char) :=
  if base = [] then .ok url
  else if url = [] then .ok base
  else do
    let bp ← urlparsePy [] base
    let up ← urlparsePy bp.scheme url
    if up.scheme ≠ bp.scheme ∨ up.scheme ∉ uses_relative then .ok url
    else if up.scheme ∈ uses_netloc ∧ up.netloc ≠ [] then
      .ok (urlunparse up.scheme up.netloc up.path up.params up.query up.fragment)
    else
      let netloc := if up.scheme ∈ uses_netloc then bp.netloc else up.netloc
      if up.path = [] ∧ up.params = [] then
        let query := if up.query = [] then bp.query else up.query
        .ok (urlunparse up.scheme netloc bp.path bp.params query up.fragment)
      else
        let base_parts := splitOnChar '/' bp.path
        let base_parts :=
          if base_parts.getLast? ≠ some [] then base_parts.dropLast else base_parts
        let segments :=
          if up.path.take 1 = ['/'] then splitOnChar '/' up.path
          else filterInterior (base_parts ++ splitOnChar '/' up.path)
        let resolved := resolveSegs segments []
        let resolved :=
          if segments.getLast? = some ['.'] ∨ segments.getLast? = some ['.', '.']
          then resolved ++ [[]] else resolved
        let path := List.intercalate ['/'] resolved
        let path := if path = [] then ['/'] else path
        .ok (urlunparse up.scheme netloc path up.params up.query up.fragment)

/-! ### `utils.is_likely_blog_url` -/

/-- The `skip_domains` denylist (substring match against the lowered host). -/
def SKIP_DOMAINS : List String := [
  "github.com", "twitter.com", "x.com", "weibo.com", "zhihu.com",
  "bilibili.com", "youtube.com", "facebook.com", "instagram.com",
  "telegram.org", "t.me", "discord.com", "discord.gg", "linkedin.com",
  "reddit.com", "pinterest.com", "tiktok.com", "douyin.com",
  "xiaohongshu.com", "douban.com", "tieba.baidu.com",
  "google.com", "baidu.com", "bing.com", "sogou.com", "so.com",
  "jsdelivr.net", "cloudflare.com", "unpkg.com", "cdnjs.com",
  "bootcdn.cn", "bootcss.com", "staticfile.org", "cloudflareinsights.com",
  "cdn.bootcdn.net", "loli.net", "fonts.googleapis.com", "fonts.gstatic.com",
  "gravatar.com", "wp.com", "githubusercontent.com", "cravatar.cn",
  "weavatar.com", "q.qlogo.cn", "thirdqq.qlogo.cn",
  "afdian.com", "afdian.net", "paypal.com", "ko-fi.com", "patreon.com",
  "beian.miit.gov.cn", "icp.gov.cn", "mps.gov.cn",
  "vercel.app", "netlify.app", "herokuapp.com", "railway.app",
  "amazonaws.com", "aliyuncs.com", "qcloud.com", "tencentcloud.com",
  "azure.com", "cloudfront.net", "akamai.com",
  "google-analytics.com", "googletagmanager.com", "umami.is",
  "plausible.io", "clarity.ms", "hotjar.com", "cnzz.com", "busuanzi.ibruce.info",
  "wjx.cn", "wenjuan.com", "typeform.com", "jotform.com",
  "gitee.com", "gitlab.com", "bitbucket.org", "codepen.io", "jsfiddle.net",
  "stackoverflow.com", "stackexchange.com", "csdn.net", "jianshu.com",
  "giscus.app", "utteranc.es", "disqus.com", "disquscdn.com",
  "geetest.com", "recaptcha.net", "hcaptcha.com",
  "browsehappy.com", "creativecommons.org", "opensource.org",
  "status.", "uptime.",
  "dogecloud.com", "qiniu.com", "upyun.com",
  "apple.com", "microsoft.com", "mozilla.org"]

/-- The `skip_extensions` list (suffix match against the lowered path). -/
def SKIP_EXTENSIONS : List String :=
  [".js", ".css", ".png", ".jpg", ".jpeg", ".gif", ".svg", ".ico", ".woff",
   ".woff2", ".ttf", ".xml", ".json", ".rss"]

/-- Python's `needle in haystack` substring test. -/
def isSubstr (needle : List Char) : List Char → Bool
  | [] => needle.isEmpty
  | c :: t => needle.isPrefixOf (c :: t) || isSubstr needle t

/-- Embedding of `utils.is_likely_blog_url` on character lists.  The
`ValueError` that `urlparse` can raise propagates (`Except.error`). -/
def is_likely_blog_urlL (url : List Char) : Except Unit Bool :=
  if url = [] then .ok false
  else do
    let p ← urlparsePy [] url
    let host := lowerL p.netloc
    let path := lowerL p.path
    if SKIP_DOMAINS.any (fun d => isSubstr d.data host) then .ok false
    else if host = "blogs.forum".data then .ok false
    else if SKIP_EXTENSIONS.any (fun e => e.data.isSuffixOf path) then .ok false
    else .ok true

/-- `is_likely_blog_url` on `String`s. -/
def is_likely_blog_url (url : String) : Except Unit Bool := is_likely_blog_urlL url.data

/-! ### `detectors.extract_friend_links` -/

/-- `(?:div|section|ul|ol)`. -/
def tagAlt : Reg := ralt [li "div", li "section", li "ul", li "ol"]

/-- `(?:friend|link|blogroll|友链|友情)`. -/
def friendKeyAlt : Reg := ralt [li "friend", li "link", li "blogroll", li "友链", li "友情"]

/-- The friend-section pattern of `extract_friend_links`
(`re.IGNORECASE | re.DOTALL`, lazy group for the section body). -/
def friendSectionPat : Reg := rcat [li "<", tagAlt, rstarG (rncls ">"),
  ralt [li "class", li "id"], li "=", rcls quoteCls, rstarG (rncls quoteCls),
  friendKeyAlt, rstarG (rncls quoteCls), rcls quoteCls, rstarG (rncls ">"), li ">",
  .group 1 (rstarL (rdot true)), li "</", tagAlt, li ">"]

/-- `href=["\']([^"\']+)["\']` (`re.IGNORECASE`). -/
def hrefPat : Reg := rcat [li "href=", rcls quoteCls,
  .group 1 (rplus (rncls quoteCls)), rcls quoteCls]

/-- The hrefs found inside one friend section, in order. -/
def sectionHrefs (sec : List Char) : List (List Char) :=
  (reFindAll hrefPat sec).map (fun x => reGroup 1 x.2)

/-- `href.startswith(('#', 'javascript:', 'mailto:'))`. -/
def isSkippedHref (href : List Char) : Bool :=
  "#".data.isPrefixOf href || "javascript:".data.isPrefixOf href ||
    "mailto:".data.isPrefixOf href

/-- The per-href body of `extract_friend_links`'s loops: skip fragment /
javascript / mailto links, resolve against the base, keep blog-likely links
whose host differs from the base host.  Errors from `urljoin` / `urlparse`
propagate. -/
def eflProcess (base_url : List Char) : List (List Char) → Except Unit (List (List Char))
  | [] => .ok []
  | href :: rest =>
      if isSkippedHref href then eflProcess base_url rest
      else
        match urljoinPy base_url href with
        | .error e => .error e
        | .ok absolute =>
            match is_likely_blog_urlL absolute with
            | .error e => .error e
            | .ok false => eflProcess base_url rest
            | .ok true =>
                match urlparsePy [] base_url, urlparsePy [] absolute with
                | .error e, _ => .error e
                | .ok _, .error e => .error e
                | .ok pb, .ok pl =>
                    if pb.netloc ≠ pl.netloc then
                      match eflProcess base_url rest with
                      | .error e => .error e
                      | .ok tail => .ok (absolute :: tail)
                    else eflProcess base_url rest

/-- `list(set(links))`: deduplication at the end of `extract_friend_links`.
CPython's set iteration order is unspecified; it is modelled as
first-occurrence order. -/
def setDedup : List (List Char) → List (List Char) → List (List Char)
  | [], _ => []
  | x :: rest, seen =>
      if x ∈ seen then setDedup rest seen else x :: setDedup rest (x :: seen)

/-- Specification-side view of strategy (a) of `count_articles`: the number
of distinct matched items across the three post patterns. -/
def patCountSpec (html : List Char) : Nat := (setDedup (postItems html) []).length

/-- Embedding of `detectors.extract_friend_links`. -/
def extract_friend_links (html : String) (base_url : String) :
    Except Unit (List String) :=
  let sections := (reFindAll friendSectionPat html.data).map (fun x => reGroup 1 x.2)
  match (if sections.isEmpty then Except.ok []
         else eflProcess base_url.data ((sections.map sectionHrefs).flatten)) with
  | .error e => .error e
  | .ok links => .ok ((setDedup links []).map fun l => ⟨l⟩)

/-! ### Concrete inputs used to settle the classifier claims -/

/-- A page whose `<meta name="generator">` says Hugo while a `hexo-…js`
structural signature also appears in the body. -/
def html0 : String :=
  "<meta name=\"generator\" content=\"Hugo\"><script src=\"hexo-a.js\"></script>"

/-- A page with a generic comment marker but no known comment platform. -/
def html1 : String := "<div>my comment section</div>"

/-- A page with one post-like link and an explicit "5 posts" claim. -/
def html2 : String := "<a href=\"/post/x\">a</a> 5 posts"

/-- The friend-link fragment of the spec's extraction scenario. -/
def friendHtml : String :=
  "<div class=\"friend-links\"><a href=\"https://other.example/\">Other</a></div>"

/-! ### Generic list lemmas -/

theorem takeWhile_append_left {α : Type} {p : α → Bool} {xs ys : List α}
    (h : ∀ x ∈ xs, p x = true) :
    (xs ++ ys).takeWhile p = xs ++ ys.takeWhile p := by
  rw [List.takeWhile_append, List.takeWhile_eq_self_iff.mpr h]
  simp

theorem takeWhile_append_stop {α : Type} {p : α → Bool} {xs ys : List α}
    (h : xs.takeWhile p ≠ xs) :
    (xs ++ ys).takeWhile p = xs.takeWhile p := by
  rw [List.takeWhile_append, if_neg]
  intro hlen
  exact h ((List.takeWhile_prefix p).eq_of_length hlen)

theorem dropWhile_append_left {α : Type} {p : α → Bool} {xs ys : List α}
    (h : ∀ x ∈ xs, p x = true) :
    (xs ++ ys).dropWhile p = ys.dropWhile p := by
  rw [List.dropWhile_append, List.dropWhile_eq_nil_iff.mpr h]
  simp

theorem dropWhile_append_stop {α : Type} {p : α → Bool} {xs ys : List α}
    (h : xs.dropWhile p ≠ []) :
    (xs ++ ys).dropWhile p = xs.dropWhile p ++ ys := by
  rw [List.dropWhile_append, if_neg]
  simpa [List.isEmpty_iff] using h

theorem takeWhile_head_nil {α : Type} {p : α → Bool} {l : List α}
    (h : ∀ c, l.head? = some c → p c = false) : l.takeWhile p = [] := by
  cases l with
  | nil => rfl
  | cons a t => simp [List.takeWhile_cons, h a rfl]

theorem dropWhile_head_self {α : Type} {p : α → Bool} {l : List α}
    (h : ∀ c, l.head? = some c → p c = false) : l.dropWhile p = l := by
  cases l with
  | nil => rfl
  | cons a t => simp [List.dropWhile_cons, h a rfl]

theorem dropWhile_dropWhile {α : Type} (p : α → Bool) (l : List α) :
    (l.dropWhile p).dropWhile p = l.dropWhile p := by
  induction l with
  | nil => rfl
  | cons a t ih =>
      by_cases h : p a = true
      · simpa [List.dropWhile_cons, h] using ih
      · simp [List.dropWhile_cons, h]

theorem head?_of_prefixOf {α : Type} {l₁ l₂ : List α} {c : α}
    (h : l₁ <+: l₂) (hc : l₁.head? = some c) : l₂.head? = some c := by
  obtain ⟨t, rfl⟩ := h
  cases l₁ with
  | nil => simp at hc
  | cons a s => simpa using hc

theorem head?_takeWhile {α : Type} {p : α → Bool} {l : List α} {c : α}
    (hc : (l.takeWhile p).head? = some c) : l.head? = some c :=
  head?_of_prefixOf (List.takeWhile_prefix p) hc

theorem contains_iff_mem {l : List Char} {a : Char} : l.contains a = true ↔ a ∈ l :=
  List.elem_iff

theorem contains_eq_decide_mem (l : List Char) (a : Char) :
    l.contains a = decide (a ∈ l) := by
  by_cases h : a ∈ l
  · simp [h, contains_iff_mem.mpr h]
  · simp only [h, decide_False]
    exact Bool.eq_false_iff.mpr (fun hc => h (contains_iff_mem.mp hc))

/-! ### Character lemmas about ASCII lowering -/

theorem toNat_ofNat_valid (n : Nat) (h : n.isValidChar) : (Char.ofNat n).toNat = n := by
  simp only [Char.ofNat, dif_pos h]
  rfl

theorem toLower_cases (c : Char) :
    (65 ≤ c.toNat ∧ c.toNat ≤ 90 ∧ (Char.toLower c).toNat = c.toNat + 32) ∨
      Char.toLower c = c := by
  by_cases h : c.toNat ≥ 65 ∧ c.toNat ≤ 90
  · left
    refine ⟨h.1, h.2, ?_⟩
    have hv : (c.toNat + 32).isValidChar := Or.inl (by omega)
    simp only [Char.toLower, if_pos h]
    exact toNat_ofNat_valid _ hv
  · right
    simp only [Char.toLower, if_neg h]

theorem toLower_toLower (c : Char) : c.toLower.toLower = c.toLower := by
  rcases toLower_cases c with ⟨h1, h2, h3⟩ | h
  · rcases toLower_cases c.toLower with ⟨h1', h2', _⟩ | h'
    · omega
    · exact h'
  · rw [h, h]

theorem toLower_eq_target {c d : Char} (hd1 : ¬(97 ≤ d.toNat ∧ d.toNat ≤ 122))
    (hd2 : ¬(65 ≤ d.toNat ∧ d.toNat ≤ 90)) : c.toLower = d ↔ c = d := by
  constructor
  · intro h
    rcases toLower_cases c with ⟨h1, h2, h3⟩ | h'
    · exfalso
      apply hd1
      have := congrArg Char.toNat h
      omega
    · rwa [h'] at h
  · intro h
    rcases toLower_cases c with ⟨h1, h2, _⟩ | h'
    · exfalso
      apply hd2
      have hcd := congrArg Char.toNat h
      exact ⟨by omega, by omega⟩
    · rw [h']
      exact h

theorem lowerL_lowerL (l : List Char) : lowerL (lowerL l) = lowerL l := by
  simp [lowerL, List.map_map, Function.comp]
  exact fun c _ => toLower_toLower c

theorem mem_lowerL {d : Char} (hd1 : ¬(97 ≤ d.toNat ∧ d.toNat ≤ 122))
    (hd2 : ¬(65 ≤ d.toNat ∧ d.toNat ≤ 90)) {l : List Char} :
    d ∈ lowerL l ↔ d ∈ l := by
  simp only [lowerL, List.mem_map]
  constructor
  · rintro ⟨c, hc, hl⟩
    rwa [(toLower_eq_target hd1 hd2).mp hl] at hc
  · intro h
    exact ⟨d, h, (toLower_eq_target hd1 hd2).mpr rfl⟩

theorem isNetlocDelim_toLower (c : Char) : isNetlocDelim c.toLower = isNetlocDelim c := by
  have h1 : (c.toLower = '/') ↔ (c = '/') := toLower_eq_target (by decide) (by decide)
  have h2 : (c.toLower = '?') ↔ (c = '?') := toLower_eq_target (by decide) (by decide)
  have h3 : (c.toLower = '#') ↔ (c = '#') := toLower_eq_target (by decide) (by decide)
  simp [isNetlocDelim, h1, h2, h3]

theorem isUnsafeByte_toLower (c : Char) : isUnsafeByte c.toLower = isUnsafeByte c := by
  have h1 : (c.toLower = '\t') ↔ (c = '\t') := toLower_eq_target (by decide) (by decide)
  have h2 : (c.toLower = '\r') ↔ (c = '\r') := toLower_eq_target (by decide) (by decide)
  have h3 : (c.toLower = '\n') ↔ (c = '\n') := toLower_eq_target (by decide) (by decide)
  simp [isUnsafeByte, h1, h2, h3]

theorem isHostChar_toLower (c : Char) : isHostChar c.toLower = isHostChar c := by
  simp [isHostChar, isNetlocDelim_toLower, isUnsafeByte_toLower]

/-! ### Lemmas about `rstripSlash` -/

theorem rstripSlash_idem (l : List Char) : rstripSlash (rstripSlash l) = rstripSlash l := by
  simp [rstripSlash, dropWhile_dropWhile]

theorem rstripSlash_append_slash (l : List Char) :
    rstripSlash (l ++ ['/']) = rstripSlash l := by
  simp [rstripSlash, List.dropWhile_cons]

theorem rstripSlash_prefixOf (l : List Char) : rstripSlash l <+: l := by
  have h := List.dropWhile_suffix (l := l.reverse) (· = '/')
  rw [rstripSlash]
  have := List.reverse_prefix.mpr h
  simpa using this

/-! ### Evaluating the parser on scheme-prefixed input -/

theorem urlsplitPy_http (t : List Char) :
    urlsplitPy [] ("http".data ++ "://".data ++ t) =
      (if (netlocOf (t.filter isCleanChar)).contains '[' !=
          (netlocOf (t.filter isCleanChar)).contains ']' then .error ()
       else .ok ⟨"http".data, netlocOf (t.filter isCleanChar),
         pathOf (t.filter isCleanChar), queryOf (t.filter isCleanChar),
         fragOf (t.filter isCleanChar)⟩) := rfl

theorem urlsplitPy_https (t : List Char) :
    urlsplitPy [] ("https".data ++ "://".data ++ t) =
      (if (netlocOf (t.filter isCleanChar)).contains '[' !=
          (netlocOf (t.filter isCleanChar)).contains ']' then .error ()
       else .ok ⟨"https".data, netlocOf (t.filter isCleanChar),
         pathOf (t.filter isCleanChar), queryOf (t.filter isCleanChar),
         fragOf (t.filter isCleanChar)⟩) := rfl

/-- The pre-semicolon part of `_splitparams` is a prefix of the path. -/
theorem splitParams_fst_prefixOf (p : List Char) : (splitParams p).1 <+: p := by
  show (if (p.reverse.takeWhile (· ≠ '/')).length = p.length
        then splitAtFirst ';' p
        else if ((p.reverse.takeWhile (· ≠ '/')).reverse).contains ';'
          then (p.take (p.length - (p.reverse.takeWhile (· ≠ '/')).length) ++
            (splitAtFirst ';' ((p.reverse.takeWhile (· ≠ '/')).reverse)).1,
            (splitAtFirst ';' ((p.reverse.takeWhile (· ≠ '/')).reverse)).2)
          else (p, ([] : List Char))).1 <+: p
  by_cases h1 : (p.reverse.takeWhile (· ≠ '/')).length = p.length
  · rw [if_pos h1]
    exact List.takeWhile_prefix _
  · rw [if_neg h1]
    by_cases h2 : ((p.reverse.takeWhile (· ≠ '/')).reverse).contains ';' = true
    · rw [if_pos h2]
      show p.take (p.length - (p.reverse.takeWhile (· ≠ '/')).length) ++
        ((p.reverse.takeWhile (· ≠ '/')).reverse).takeWhile (· ≠ ';') <+: p
      have h0 : p = (p.reverse.dropWhile (· ≠ '/')).reverse ++
          (p.reverse.takeWhile (· ≠ '/')).reverse := by
        rw [← List.reverse_append, List.takeWhile_append_dropWhile, List.reverse_reverse]
      have hgen : ∀ C B : List Char, p = C ++ B → p.take (p.length - B.length) = C := by
        intro C B hp
        subst hp
        rw [List.length_append, Nat.add_sub_cancel, List.take_left]
      have htake0 := hgen ((p.reverse.dropWhile (· ≠ '/')).reverse)
        ((p.reverse.takeWhile (· ≠ '/')).reverse) h0
      rw [List.length_reverse] at htake0
      rw [htake0]
      obtain ⟨tl, htl⟩ :=
        List.takeWhile_prefix (l := (p.reverse.takeWhile (· ≠ '/')).reverse)
          (fun x => decide (x ≠ ';'))
      refine ⟨tl, ?_⟩
      rw [List.append_assoc, htl]
      exact h0.symm
    · rw [if_neg h2]

/-- The params-stripped path is a prefix of the path. -/
theorem paramCut_prefixOf (p : List Char) : paramCut p <+: p := by
  rw [paramCut]
  by_cases h : p.contains ';' = true
  · rw [if_pos h]
    exact splitParams_fst_prefixOf p
  · rw [if_neg h]

theorem urlparsePy_http (t : List Char) :
    urlparsePy [] ("http".data ++ "://".data ++ t) =
      (if (netlocOf (t.filter isCleanChar)).contains '[' !=
          (netlocOf (t.filter isCleanChar)).contains ']' then .error ()
       else .ok ⟨"http".data, netlocOf (t.filter isCleanChar),
         paramCut (pathOf (t.filter isCleanChar)),
         paramRest (pathOf (t.filter isCleanChar)),
         queryOf (t.filter isCleanChar), fragOf (t.filter isCleanChar)⟩) := by
  rw [urlparsePy, urlsplitPy_http]
  by_cases hbr : (netlocOf (t.filter isCleanChar)).contains '[' !=
      (netlocOf (t.filter isCleanChar)).contains ']'
  · rw [if_pos hbr, if_pos hbr]
  · rw [if_neg hbr, if_neg hbr]

theorem urlparsePy_https (t : List Char) :
    urlparsePy [] ("https".data ++ "://".data ++ t) =
      (if (netlocOf (t.filter isCleanChar)).contains '[' !=
          (netlocOf (t.filter isCleanChar)).contains ']' then .error ()
       else .ok ⟨"https".data, netlocOf (t.filter isCleanChar),
         paramCut (pathOf (t.filter isCleanChar)),
         paramRest (pathOf (t.filter isCleanChar)),
         queryOf (t.filter isCleanChar), fragOf (t.filter isCleanChar)⟩) := by
  rw [urlparsePy, urlsplitPy_https]
  by_cases hbr : (netlocOf (t.filter isCleanChar)).contains '[' !=
      (netlocOf (t.filter isCleanChar)).contains ']'
  · rw [if_pos hbr, if_pos hbr]
  · rw [if_neg hbr, if_neg hbr]

/-- Evaluation of `normalizeList` on an input that carries an explicit
`http://` or `https://` scheme: the key's path is the params-stripped,
slash-stripped path. -/
theorem normalizeList_eval (sch t : List Char)
    (hs : sch = "http".data ∨ sch = "https".data) :
    normalizeList (sch ++ "://".data ++ t) =
      (if (netlocOf (t.filter isCleanChar)).contains '[' !=
          (netlocOf (t.filter isCleanChar)).contains ']' then none
       else some (sch ++ "://".data ++
          stripWww (lowerL (netlocOf (t.filter isCleanChar))) ++
          rstripSlash (paramCut (pathOf (t.filter isCleanChar))))) := by
  rcases hs with rfl | rfl
  · have hne : "http".data ++ "://".data ++ t ≠ [] := by simp
    have hpre : (httpSlashes.isPrefixOf ("http".data ++ "://".data ++ t) ||
        httpsSlashes.isPrefixOf ("http".data ++ "://".data ++ t)) = true := by
      have h : httpSlashes.isPrefixOf ("http".data ++ "://".data ++ t) = true := by
        rw [List.isPrefixOf_iff_prefix]
        exact List.prefix_append _ _
      rw [h, Bool.true_or]
    rw [normalizeList, if_neg hne, if_pos hpre, urlparsePy_http]
    by_cases hbr : (netlocOf (t.filter isCleanChar)).contains '[' !=
        (netlocOf (t.filter isCleanChar)).contains ']'
    · rw [if_pos hbr, if_pos hbr]
    · rw [if_neg hbr, if_neg hbr]
  · have hne : "https".data ++ "://".data ++ t ≠ [] := by simp
    have hpre : (httpSlashes.isPrefixOf ("https".data ++ "://".data ++ t) ||
        httpsSlashes.isPrefixOf ("https".data ++ "://".data ++ t)) = true := by
      have h : httpsSlashes.isPrefixOf ("https".data ++ "://".data ++ t) = true := by
        rw [List.isPrefixOf_iff_prefix]
        exact List.prefix_append _ _
      rw [h, Bool.or_true]
    rw [normalizeList, if_neg hne, if_pos hpre, urlparsePy_https]
    by_cases hbr : (netlocOf (t.filter isCleanChar)).contains '[' !=
        (netlocOf (t.filter isCleanChar)).contains ']'
    · rw [if_pos hbr, if_pos hbr]
    · rw [if_neg hbr, if_neg hbr]

/-! ### Properties of the components of a produced key -/

theorem bool_not_true {b : Bool} (h : ¬b = true) : b = false := by
  cases b
  · rfl
  · exact absurd rfl h

theorem head?_mem {α : Type} {l : List α} {c : α} (h : l.head? = some c) : c ∈ l := by
  cases l with
  | nil => simp at h
  | cons a t =>
      simp only [List.head?_cons, Option.some.injEq] at h
      rw [← h]
      exact List.mem_cons_self a t

theorem netlocOf_split {host t : List Char}
    (hh : ∀ c ∈ host, (!isNetlocDelim c) = true)
    (ht : ∀ c, t.head? = some c → isNetlocDelim c = true) :
    netlocOf (host ++ t) = host ∧ afterNetloc (host ++ t) = t := by
  constructor
  · rw [netlocOf, takeWhile_append_left hh,
      takeWhile_head_nil (fun c hc => by simp [ht c hc])]
    simp
  · rw [afterNetloc, dropWhile_append_left hh]
    exact dropWhile_head_self (fun c hc => by simp [ht c hc])

theorem mem_netlocOf_isHostChar {r : List Char} {c : Char}
    (hr : ∀ c ∈ r, isCleanChar c = true) (hc : c ∈ netlocOf r) : isHostChar c = true := by
  have h1 := List.mem_takeWhile_imp hc
  have h2 : c ∈ r := ((List.takeWhile_prefix _).sublist).mem hc
  simp only [isHostChar, Bool.and_eq_true]
  exact ⟨h1, hr c h2⟩

theorem mem_stripWww {y : List Char} {c : Char} (h : c ∈ stripWww y) : c ∈ y := by
  unfold stripWww at h
  split at h
  · exact List.mem_of_mem_drop h
  · exact h

theorem stripWww_www (x : List Char) : stripWww ("www.".data ++ x) = x := by
  have hp : "www.".data.isPrefixOf ("www.".data ++ x) = true := by
    rw [List.isPrefixOf_iff_prefix]
    exact List.prefix_append _ _
  rw [stripWww, if_pos hp]
  exact List.drop_left "www.".data x

theorem stripWww_cases (y : List Char) : stripWww y = y ∨ y = "www.".data ++ stripWww y := by
  by_cases hp : "www.".data.isPrefixOf y = true
  · right
    obtain ⟨t2, rfl⟩ := List.isPrefixOf_iff_prefix.mp hp
    rw [stripWww_www]
  · left
    rw [stripWww, if_neg]
    simp [hp]

theorem mem_lowerL_exists {y : List Char} {c : Char} (h : c ∈ lowerL y) :
    ∃ c₀ ∈ y, c = c₀.toLower := by
  simp only [lowerL, List.mem_map] at h
  obtain ⟨c₀, h₀, hh⟩ := h
  exact ⟨c₀, h₀, hh.symm⟩

theorem contains_lowerL {y : List Char} {d : Char}
    (hd1 : ¬(97 ≤ d.toNat ∧ d.toNat ≤ 122)) (hd2 : ¬(65 ≤ d.toNat ∧ d.toNat ≤ 90)) :
    (lowerL y).contains d = y.contains d := by
  rw [contains_eq_decide_mem, contains_eq_decide_mem]
  exact decide_eq_decide.mpr (mem_lowerL hd1 hd2)

theorem contains_stripWww {y : List Char} {d : Char} (hd : d ∉ "www.".data) :
    (stripWww y).contains d = y.contains d := by
  rcases stripWww_cases y with h | h
  · rw [h]
  · conv_rhs => rw [h]
    rw [contains_eq_decide_mem, contains_eq_decide_mem]
    apply decide_eq_decide.mpr
    simp only [List.mem_append]
    constructor
    · exact Or.inr
    · rintro (hmw | hms)
      · exact absurd hmw hd
      · exact hms

theorem pathOf_head {r : List Char} {c : Char} (h : (pathOf r).head? = some c) :
    c = '/' := by
  have h' : (((afterNetloc r).takeWhile (fun x => decide (x ≠ '#'))).takeWhile
      (fun x => decide (x ≠ '?'))).head? = some c := h
  have hmem : c ∈ ((afterNetloc r).takeWhile (fun x => decide (x ≠ '#'))).takeWhile
      (fun x => decide (x ≠ '?')) := head?_mem h'
  have h1 : c ∈ (afterNetloc r).takeWhile (fun x => decide (x ≠ '#')) :=
    ((List.takeWhile_prefix _).sublist).mem hmem
  have hq0 := List.mem_takeWhile_imp hmem
  have hh0 := List.mem_takeWhile_imp h1
  have hq : c ≠ '?' := by simpa using hq0
  have hh : c ≠ '#' := by simpa using hh0
  have h3 : (afterNetloc r).head? = some c := head?_takeWhile (head?_takeWhile h')
  have h4 := List.head?_dropWhile_not (fun c => !isNetlocDelim c) r
  rw [show (List.dropWhile (fun c => !isNetlocDelim c) r) = afterNetloc r from rfl, h3] at h4
  simp only [Bool.not_eq_false'] at h4
  simp only [isNetlocDelim, Bool.or_eq_true, decide_eq_true_eq] at h4
  rcases h4 with (h4 | h4) | h4
  · exact h4
  · exact absurd h4 hq
  · exact absurd h4 hh

theorem mem_pathOf {r : List Char} {c : Char} (h : c ∈ pathOf r) :
    c ∈ r ∧ c ≠ '#' ∧ c ≠ '?' := by
  have h' : c ∈ ((afterNetloc r).takeWhile (fun x => decide (x ≠ '#'))).takeWhile
      (fun x => decide (x ≠ '?')) := h
  have h1 : c ∈ (afterNetloc r).takeWhile (fun x => decide (x ≠ '#')) :=
    ((List.takeWhile_prefix _).sublist).mem h'
  have h2 : c ∈ afterNetloc r := ((List.takeWhile_prefix _).sublist).mem h1
  have h3 : c ∈ r := ((List.dropWhile_suffix _).sublist).mem h2
  have hh0 := List.mem_takeWhile_imp h1
  have hq0 := List.mem_takeWhile_imp h'
  exact ⟨h3, by simpa using hh0, by simpa using hq0⟩

theorem lowerL_stripWww_lowerL (n : List Char) :
    lowerL (stripWww (lowerL n)) = stripWww (lowerL n) := by
  rcases stripWww_cases (lowerL n) with h | h
  · rw [h, lowerL_lowerL]
  · have hdrop : (lowerL n).drop 4 = stripWww (lowerL n) := by
      conv_lhs => rw [h]
      exact List.drop_left "www.".data (stripWww (lowerL n))
    rw [← hdrop]
    show lowerL ((lowerL n).drop 4) = (lowerL n).drop 4
    rw [lowerL, List.map_drop]
    rw [show List.map Char.toLower (lowerL n) = lowerL (lowerL n) from rfl, lowerL_lowerL]

/-- For an unprefixed nonempty input, `normalize_url` behaves as if `https://`
had been prepended (which is exactly what the code does). -/
theorem normalizeList_prepend (l : List Char)
    (h1 : httpSlashes.isPrefixOf l = false) (h2 : httpsSlashes.isPrefixOf l = false)
    (hne : l ≠ []) :
    normalizeList l = normalizeList (httpsSlashes ++ l) := by
  have hne2 : httpsSlashes ++ l ≠ [] := by simp [httpsSlashes]
  have hpre2 : (httpSlashes.isPrefixOf (httpsSlashes ++ l) ||
      httpsSlashes.isPrefixOf (httpsSlashes ++ l)) = true := by
    have h : httpsSlashes.isPrefixOf (httpsSlashes ++ l) = true := by
      rw [List.isPrefixOf_iff_prefix]
      exact List.prefix_append _ _
    rw [h, Bool.or_true]
  rw [normalizeList, if_neg hne, h1, h2, normalizeList, if_neg hne2, if_pos hpre2]
  rfl

/-- Computing the host part of a well-formed key. -/
theorem keyHost_eq {sch host path : List Char}
    (hs : sch = "http".data ∨ sch = "https".data)
    (hh : ∀ c ∈ host, (!isNetlocDelim c) = true)
    (hp : ∀ c, path.head? = some c → isNetlocDelim c = true) :
    keyHost (sch ++ "://".data ++ host ++ path) = host := by
  have hsplit : List.takeWhile (fun c => !isNetlocDelim c) (host ++ path) = host := by
    rw [takeWhile_append_left hh, takeWhile_head_nil (fun c hc => by simp [hp c hc])]
    simp
  rcases hs with rfl | rfl
  · show ((("http".data ++ "://".data ++ host ++ path).dropWhile (· ≠ ':')).drop 3).takeWhile
        (fun c => !isNetlocDelim c) = host
    rw [show ("http".data ++ "://".data ++ host ++ path).dropWhile (· ≠ ':') =
        ':' :: '/' :: '/' :: (host ++ path) from by
      rw [show "http".data ++ "://".data ++ host ++ path =
        'h' :: 't' :: 't' :: 'p' :: (':' :: '/' :: '/' :: (host ++ path)) from by simp]
      rfl]
    exact hsplit
  · show ((("https".data ++ "://".data ++ host ++ path).dropWhile (· ≠ ':')).drop 3).takeWhile
        (fun c => !isNetlocDelim c) = host
    rw [show ("https".data ++ "://".data ++ host ++ path).dropWhile (· ≠ ':') =
        ':' :: '/' :: '/' :: (host ++ path) from by
      rw [show "https".data ++ "://".data ++ host ++ path =
        'h' :: 't' :: 't' :: 'p' :: 's' :: (':' :: '/' :: '/' :: (host ++ path)) from by simp]
      rfl]
    exact hsplit

/-- Extracting the content of a successful `normalize_url` on prefixed input. -/
theorem normalizeList_eval_some {sch t k : List Char}
    (hs : sch = "http".data ∨ sch = "https".data)
    (h : normalizeList (sch ++ "://".data ++ t) = some k) :
    (netlocOf (t.filter isCleanChar)).contains '[' =
      (netlocOf (t.filter isCleanChar)).contains ']' ∧
    k = sch ++ "://".data ++ stripWww (lowerL (netlocOf (t.filter isCleanChar))) ++
      rstripSlash (paramCut (pathOf (t.filter isCleanChar))) := by
  rw [normalizeList_eval sch t hs] at h
  by_cases hbr : (netlocOf (t.filter isCleanChar)).contains '[' !=
      (netlocOf (t.filter isCleanChar)).contains ']'
  · rw [if_pos hbr] at h
    exact absurd h (by simp)
  · rw [if_neg hbr] at h
    have hbr' : (netlocOf (t.filter isCleanChar)).contains '[' =
        (netlocOf (t.filter isCleanChar)).contains ']' := by
      simpa [bne] using hbr
    have hk := Option.some.inj h
    rw [← hk]
    exact ⟨hbr', by rw [List.append_assoc, List.append_assoc]⟩

/-- Every nonempty input is processed as a `http://`- or `https://`-prefixed
URL whose relative part draws its characters from the input. -/
theorem normalizeList_reduce (s : List Char) (hs0 : s ≠ []) :
    ∃ sch t, (sch = "http".data ∨ sch = "https".data) ∧ (∀ c ∈ t, c ∈ s) ∧
      normalizeList s = normalizeList (sch ++ "://".data ++ t) := by
  by_cases hp1 : httpSlashes.isPrefixOf s = true
  · obtain ⟨t, rfl⟩ := List.isPrefixOf_iff_prefix.mp hp1
    exact ⟨"http".data, t, Or.inl rfl, fun c hc => List.mem_append_right _ hc, rfl⟩
  · by_cases hp2 : httpsSlashes.isPrefixOf s = true
    · obtain ⟨t, rfl⟩ := List.isPrefixOf_iff_prefix.mp hp2
      exact ⟨"https".data, t, Or.inr rfl, fun c hc => List.mem_append_right _ hc, rfl⟩
    · refine ⟨"https".data, s, Or.inr rfl, fun c hc => hc, ?_⟩
      exact normalizeList_prepend s (bool_not_true hp1) (bool_not_true hp2) hs0

/-- Structure of every key produced by a successful `normalize_url`. -/
theorem normalizeList_shape {s k : List Char} (h : normalizeList s = some k) :
    (s = [] ∧ k = []) ∨
    ∃ sch host path, (sch = "http".data ∨ sch = "https".data) ∧
      k = sch ++ "://".data ++ host ++ path ∧
      (∀ c ∈ host, isHostChar c = true) ∧
      lowerL host = host ∧
      (host.contains '[' = host.contains ']') ∧
      (∀ c, path.head? = some c → c = '/') ∧
      (∀ c ∈ path, isCleanChar c = true ∧ c ≠ '#' ∧ c ≠ '?') ∧
      rstripSlash path = path := by
  by_cases hs0 : s = []
  · subst hs0
    left
    refine ⟨rfl, ?_⟩
    rw [normalizeList, if_pos rfl] at h
    exact (Option.some.inj h).symm
  · right
    have hmain : ∃ sch t, (sch = "http".data ∨ sch = "https".data) ∧
        normalizeList (sch ++ "://".data ++ t) = some k := by
      by_cases hp1 : httpSlashes.isPrefixOf s = true
      · obtain ⟨t, rfl⟩ := List.isPrefixOf_iff_prefix.mp hp1
        exact ⟨"http".data, t, Or.inl rfl, h⟩
      · by_cases hp2 : httpsSlashes.isPrefixOf s = true
        · obtain ⟨t, rfl⟩ := List.isPrefixOf_iff_prefix.mp hp2
          exact ⟨"https".data, t, Or.inr rfl, h⟩
        · refine ⟨"https".data, s, Or.inr rfl, ?_⟩
          have heq : normalizeList s = normalizeList ("https".data ++ "://".data ++ s) :=
            normalizeList_prepend s (bool_not_true hp1) (bool_not_true hp2) hs0
          rw [← heq]
          exact h
    obtain ⟨sch, t, hsch, h'⟩ := hmain
    obtain ⟨hbr, hk⟩ := normalizeList_eval_some hsch h'
    have hr : ∀ c ∈ t.filter isCleanChar, isCleanChar c = true := fun c hc =>
      List.of_mem_filter hc
    refine ⟨sch, stripWww (lowerL (netlocOf (t.filter isCleanChar))),
      rstripSlash (paramCut (pathOf (t.filter isCleanChar))), hsch, hk, ?_, ?_, ?_, ?_, ?_, ?_⟩
    · intro c hc
      obtain ⟨c₀, hc₀, rfl⟩ := mem_lowerL_exists (mem_stripWww hc)
      rw [isHostChar_toLower]
      exact mem_netlocOf_isHostChar hr hc₀
    · exact lowerL_stripWww_lowerL _
    · rw [contains_stripWww (by decide), contains_stripWww (by decide),
        contains_lowerL (by decide) (by decide), contains_lowerL (by decide) (by decide)]
      exact hbr
    · intro c hc
      exact pathOf_head (head?_of_prefixOf (paramCut_prefixOf _)
        (head?_of_prefixOf (rstripSlash_prefixOf _) hc))
    · intro c hc
      have hc0 : c ∈ paramCut (pathOf (t.filter isCleanChar)) :=
        ((rstripSlash_prefixOf _).sublist).mem hc
      have hc' : c ∈ pathOf (t.filter isCleanChar) :=
        ((paramCut_prefixOf _).sublist).mem hc0
      obtain ⟨hcr, hc1, hc2⟩ := mem_pathOf hc'
      exact ⟨hr c hcr, hc1, hc2⟩
    · exact rstripSlash_idem _

/-- Re-normalizing a produced key is the identity, provided the key's host
does not itself still start with `www.` (that can only happen when the
original host carried a doubled `www.www.` prefix) and the key contains no
`;` (otherwise stripping the trailing slash can expose a `;params` suffix in
the last path segment, which the second `urlparse` then removes). -/
theorem normalizeList_idem_core {s k : List Char} (h : normalizeList s = some k)
    (hw : "www.".data.isPrefixOf (keyHost k) = false)
    (hsemi : k.contains ';' = false) :
    normalizeList k = some k := by
  rcases normalizeList_shape h with ⟨_, rfl⟩ | hstr
  · rfl
  · obtain ⟨sch, host, path, hsch, rfl, hhost, hlow, hbr, hhead, hpmem, hrs⟩ := hstr
    have hps : path.contains ';' = false := by
      rw [contains_eq_decide_mem]
      simp only [decide_eq_false_iff_not]
      intro hm
      have hmk : ';' ∈ sch ++ "://".data ++ host ++ path := List.mem_append_right _ hm
      have hk' := contains_iff_mem.mpr hmk
      rw [hsemi] at hk'
      exact Bool.noConfusion hk'
    have hhd : ∀ c ∈ host, (!isNetlocDelim c) = true := fun c hc => by
      have hx := hhost c hc
      rw [isHostChar, Bool.and_eq_true] at hx
      exact hx.1
    have hph : ∀ c, path.head? = some c → isNetlocDelim c = true := fun c hc => by
      rw [hhead c hc]
      rfl
    have hkh : keyHost (sch ++ "://".data ++ host ++ path) = host := keyHost_eq hsch hhd hph
    rw [hkh] at hw
    have hclean : ∀ c ∈ host ++ path, isCleanChar c = true := by
      intro c hc
      rcases List.mem_append.mp hc with hc | hc
      · have hx := hhost c hc
        rw [isHostChar, Bool.and_eq_true] at hx
        exact hx.2
      · exact (hpmem c hc).1
    have hfix : (host ++ path).filter isCleanChar = host ++ path :=
      List.filter_eq_self.mpr hclean
    obtain ⟨hnet, haft⟩ := netlocOf_split hhd hph
    have hhost2 : stripWww (lowerL host) = host := by
      rw [hlow, stripWww, if_neg]
      simp [hw]
    have hpath2 : rstripSlash (paramCut (pathOf (host ++ path))) = path := by
      have hA : List.takeWhile (fun x => decide (x ≠ '#')) path = path :=
        List.takeWhile_eq_self_iff.mpr (fun c hc => by simp [(hpmem c hc).2.1])
      have hB : List.takeWhile (fun x => decide (x ≠ '?')) path = path :=
        List.takeWhile_eq_self_iff.mpr (fun c hc => by simp [(hpmem c hc).2.2])
      have h1 : pathOf (host ++ path) = path := by
        show ((afterNetloc (host ++ path)).takeWhile (fun x => decide (x ≠ '#'))).takeWhile
          (fun x => decide (x ≠ '?')) = path
        rw [haft, hA, hB]
      rw [h1, paramCut, if_neg (fun hx => by rw [hps] at hx; exact Bool.noConfusion hx), hrs]
    have hcond : ((host).contains '[' != (host).contains ']') = false := by
      rw [hbr]
      exact bne_self_eq_false _
    rw [List.append_assoc (sch ++ "://".data), normalizeList_eval sch (host ++ path) hsch,
      hfix, hnet, hcond, if_neg (by simp), hhost2, hpath2, List.append_assoc]

/-- Inserting `www.` in front of a host that is not already `www.`-prefixed
does not change the key. -/
theorem normalize_www_core (sch host t : List Char)
    (hsch : sch = "http".data ∨ sch = "https".data)
    (hhost : ∀ c ∈ host, isHostChar c = true)
    (hw : "www.".data.isPrefixOf (lowerL host) = false)
    (ht : ∀ c ∈ t, isCleanChar c = true)
    (ht0 : ∀ c, t.head? = some c → isNetlocDelim c = true) :
    normalizeList (sch ++ "://".data ++ ("www.".data ++ host ++ t)) =
      normalizeList (sch ++ "://".data ++ (host ++ t)) := by
  rw [normalizeList_eval sch _ hsch, normalizeList_eval sch _ hsch]
  have hhc : ∀ c ∈ host, isCleanChar c = true := fun c hc => by
    have hx := hhost c hc
    rw [isHostChar, Bool.and_eq_true] at hx
    exact hx.2
  have hhd : ∀ c ∈ host, (!isNetlocDelim c) = true := fun c hc => by
    have hx := hhost c hc
    rw [isHostChar, Bool.and_eq_true] at hx
    exact hx.1
  have hwwwclean : ∀ c ∈ "www.".data, isCleanChar c = true := by decide
  have hwwwdelim : ∀ c ∈ "www.".data, (!isNetlocDelim c) = true := by decide
  have hfix1 : ("www.".data ++ host ++ t).filter isCleanChar = "www.".data ++ host ++ t := by
    apply List.filter_eq_self.mpr
    intro c hc
    rcases List.mem_append.mp hc with hc | hc
    · rcases List.mem_append.mp hc with hc | hc
      · exact hwwwclean c hc
      · exact hhc c hc
    · exact ht c hc
  have hfix2 : (host ++ t).filter isCleanChar = host ++ t := by
    apply List.filter_eq_self.mpr
    intro c hc
    rcases List.mem_append.mp hc with hc | hc
    · exact hhc c hc
    · exact ht c hc
  rw [hfix1, hfix2]
  have hwall : ∀ c ∈ "www.".data ++ host, (!isNetlocDelim c) = true := by
    intro c hc
    rcases List.mem_append.mp hc with hc | hc
    · exact hwwwdelim c hc
    · exact hhd c hc
  have h1 : netlocOf ("www.".data ++ host ++ t) = "www.".data ++ host := by
    rw [netlocOf, takeWhile_append_left hwall,
      takeWhile_head_nil (fun c hc => by simp [ht0 c hc])]
    simp
  obtain ⟨h2, haft2⟩ := netlocOf_split hhd ht0
  have haft1 : afterNetloc ("www.".data ++ host ++ t) = t := by
    rw [afterNetloc, dropWhile_append_left hwall]
    exact dropWhile_head_self (fun c hc => by simp [ht0 c hc])
  have hcb : ∀ d : Char, d ∉ "www.".data →
      ("www.".data ++ host).contains d = host.contains d := by
    intro d hd
    rw [contains_eq_decide_mem, contains_eq_decide_mem]
    apply decide_eq_decide.mpr
    simp only [List.mem_append]
    constructor
    · rintro (hmw | hms)
      · exact absurd hmw hd
      · exact hms
    · exact Or.inr
  have hpe : pathOf ("www.".data ++ host ++ t) = pathOf (host ++ t) := by
    show ((afterNetloc _).takeWhile (fun x => decide (x ≠ '#'))).takeWhile
        (fun x => decide (x ≠ '?')) =
      ((afterNetloc _).takeWhile (fun x => decide (x ≠ '#'))).takeWhile
        (fun x => decide (x ≠ '?'))
    rw [haft1, haft2]
  have hhosts : stripWww (lowerL ("www.".data ++ host)) = stripWww (lowerL host) := by
    rw [lowerL, List.map_append,
      show List.map Char.toLower "www.".data = "www.".data from by decide,
      show List.map Char.toLower host = lowerL host from rfl, stripWww_www,
      stripWww, if_neg (by simp [hw])]
  rw [h1, h2, hpe, hcb '[' (by decide), hcb ']' (by decide), hhosts]

/-- Appending a trailing slash after an explicit scheme does not change the
key, provided the part after the scheme contains no `;`: a `;` in the path
would sit in the last segment of the slash-free variant (so `urlparse` cuts
the params there) but not of the slash-terminated one. -/
theorem normalize_trailing_core (sch t : List Char)
    (hsch : sch = "http".data ∨ sch = "https".data)
    (hsemi : t.contains ';' = false) :
    normalizeList (sch ++ "://".data ++ (t ++ ['/'])) =
      normalizeList (sch ++ "://".data ++ t) := by
  rw [normalizeList_eval sch _ hsch, normalizeList_eval sch _ hsch]
  have hfilter : (t ++ ['/']).filter isCleanChar = t.filter isCleanChar ++ ['/'] := by
    rw [List.filter_append]
    rfl
  rw [hfilter]
  have hnot : ';' ∉ t := fun hm => by
    have hx := contains_iff_mem.mpr hm
    rw [hsemi] at hx
    exact Bool.noConfusion hx
  have hsp1 : (pathOf (t.filter isCleanChar ++ ['/'])).contains ';' = false := by
    rw [contains_eq_decide_mem]
    simp only [decide_eq_false_iff_not]
    intro hm
    rcases List.mem_append.mp (mem_pathOf hm).1 with h2 | h2
    · exact hnot ((List.filter_sublist t).mem h2)
    · simp at h2
  have hsp2 : (pathOf (t.filter isCleanChar)).contains ';' = false := by
    rw [contains_eq_decide_mem]
    simp only [decide_eq_false_iff_not]
    intro hm
    exact hnot ((List.filter_sublist t).mem (mem_pathOf hm).1)
  rw [show paramCut (pathOf (t.filter isCleanChar ++ ['/'])) =
        pathOf (t.filter isCleanChar ++ ['/']) from by
      rw [paramCut, if_neg (fun hx => by rw [hsp1] at hx; exact Bool.noConfusion hx)],
    show paramCut (pathOf (t.filter isCleanChar)) =
        pathOf (t.filter isCleanChar) from by
      rw [paramCut, if_neg (fun hx => by rw [hsp2] at hx; exact Bool.noConfusion hx)]]
  by_cases hall : ∀ c ∈ t.filter isCleanChar, (!isNetlocDelim c) = true
  · have h1 : netlocOf (t.filter isCleanChar ++ ['/']) = netlocOf (t.filter isCleanChar) := by
      rw [netlocOf, takeWhile_append_left hall,
        show List.takeWhile (fun c => !isNetlocDelim c) ['/'] = [] from rfl, List.append_nil]
      exact (List.takeWhile_eq_self_iff.mpr hall).symm
    have h2 : afterNetloc (t.filter isCleanChar ++ ['/']) = ['/'] := by
      rw [afterNetloc, dropWhile_append_left hall]
      rfl
    have h3 : afterNetloc (t.filter isCleanChar) = [] := by
      rw [afterNetloc, List.dropWhile_eq_nil_iff.mpr hall]
    have h4 : rstripSlash (pathOf (t.filter isCleanChar ++ ['/'])) =
        rstripSlash (pathOf (t.filter isCleanChar)) := by
      show rstripSlash (((afterNetloc (t.filter isCleanChar ++ ['/'])).takeWhile
          (fun x => decide (x ≠ '#'))).takeWhile (fun x => decide (x ≠ '?'))) =
        rstripSlash (((afterNetloc (t.filter isCleanChar)).takeWhile
          (fun x => decide (x ≠ '#'))).takeWhile (fun x => decide (x ≠ '?')))
      rw [h2, h3]
      rfl
    rw [h1, h4]
  · have hne1 : (t.filter isCleanChar).takeWhile (fun c => !isNetlocDelim c) ≠
        t.filter isCleanChar := fun hcon => hall (List.takeWhile_eq_self_iff.mp hcon)
    have hne2 : (t.filter isCleanChar).dropWhile (fun c => !isNetlocDelim c) ≠ [] :=
      fun hcon => hall (List.dropWhile_eq_nil_iff.mp hcon)
    have h1 : netlocOf (t.filter isCleanChar ++ ['/']) = netlocOf (t.filter isCleanChar) :=
      takeWhile_append_stop hne1
    have h2 : afterNetloc (t.filter isCleanChar ++ ['/']) =
        afterNetloc (t.filter isCleanChar) ++ ['/'] := dropWhile_append_stop hne2
    have h4 : rstripSlash (pathOf (t.filter isCleanChar ++ ['/'])) =
        rstripSlash (pathOf (t.filter isCleanChar)) := by
      show rstripSlash (((afterNetloc (t.filter isCleanChar ++ ['/'])).takeWhile
          (fun x => decide (x ≠ '#'))).takeWhile (fun x => decide (x ≠ '?'))) =
        rstripSlash (((afterNetloc (t.filter isCleanChar)).takeWhile
          (fun x => decide (x ≠ '#'))).takeWhile (fun x => decide (x ≠ '?')))
      rw [h2]
      by_cases ha : ∀ c ∈ afterNetloc (t.filter isCleanChar), (decide (c ≠ '#')) = true
      · rw [takeWhile_append_left ha,
          show List.takeWhile (fun x => decide (x ≠ '#')) ['/'] = ['/'] from rfl,
          List.takeWhile_eq_self_iff.mpr ha]
        by_cases hq : ∀ c ∈ afterNetloc (t.filter isCleanChar), (decide (c ≠ '?')) = true
        · rw [takeWhile_append_left hq,
            show List.takeWhile (fun x => decide (x ≠ '?')) ['/'] = ['/'] from rfl,
            List.takeWhile_eq_self_iff.mpr hq, rstripSlash_append_slash]
        · have hq' : (afterNetloc (t.filter isCleanChar)).takeWhile
              (fun x => decide (x ≠ '?')) ≠ afterNetloc (t.filter isCleanChar) :=
            fun hcon => hq (List.takeWhile_eq_self_iff.mp hcon)
          rw [takeWhile_append_stop hq']
      · have ha' : (afterNetloc (t.filter isCleanChar)).takeWhile
            (fun x => decide (x ≠ '#')) ≠ afterNetloc (t.filter isCleanChar) :=
          fun hcon => ha (List.takeWhile_eq_self_iff.mp hcon)
        rw [takeWhile_append_stop ha']
    rw [h1, h4]

/-- A bracket-free input always normalizes successfully. -/
theorem normalizeList_isSome_of_no_brackets (l : List Char)
    (hl : ∀ c ∈ l, c ≠ '[' ∧ c ≠ ']') : (normalizeList l).isSome = true := by
  by_cases h0 : l = []
  · subst h0
    rfl
  · obtain ⟨sch, t, hsch, hmem, heq⟩ := normalizeList_reduce l h0
    rw [heq, normalizeList_eval sch t hsch]
    have hget : ∀ d : Char, (d = '[' ∨ d = ']') →
        (netlocOf (t.filter isCleanChar)).contains d = false := by
      intro d hd
      rw [contains_eq_decide_mem]
      simp only [decide_eq_false_iff_not]
      intro hm
      have h1 : d ∈ t.filter isCleanChar := ((List.takeWhile_prefix _).sublist).mem hm
      have h2 : d ∈ t := (List.filter_sublist t).mem h1
      have h3 := hl d (hmem d h2)
      rcases hd with rfl | rfl
      · exact h3.1 rfl
      · exact h3.2 rfl
    rw [hget '[' (Or.inl rfl), hget ']' (Or.inr rfl)]
    rfl

/-! ### Claims C1, C6, C7 about `normalize_url` -/

/-- C1 (counterexample): the spec claims `normalize("example.com")` and
`normalize("http://www.example.com/")` are equal, but `normalize_url` keeps
the scheme of its input (`f"{parsed.scheme}://…"`), so the first key is
`https://example.com` while the second is `http://example.com`.  The general
trailing-slash clause fails too: `urlparse` cuts `;params` off the *last*
path segment, so removing a trailing slash can expose a `;` to the cut and
the two variants get different keys. -/
theorem C1_counterexample :
    normalize_url "example.com" ≠ normalize_url "http://www.example.com/" ∧
    normalize_url "http://h/a;b/" ≠ normalize_url "http://h/a;b" := by decide

/-- C1 (amended): normalize_url preserves the scheme (defaulting a scheme-less
input to `https`), so only the `https`-flavoured variants of the spec's triple
agree; a `;` in the last path segment is cut as `;params` by `urlparse`
(`"http://h/a;b"` keys to `http://h/a`, `"http://h/a;b/"` to `http://h/a;b`);
URLs that differ only by a leading `www.` on a not-already-`www.`-prefixed
host, or — for `;`-free inputs — only by a trailing slash (excluding the two
degenerate strings `http:/` and `https:/`, whose appended slash completes the
scheme separator), do normalize to the same key. -/
theorem C1_equivalence_amended :
    (normalize_url "example.com" = some "https://example.com" ∧
     normalize_url "www.example.com" = some "https://example.com" ∧
     normalize_url "https://www.example.com/" = some "https://example.com" ∧
     normalize_url "https://example.com" = some "https://example.com" ∧
     normalize_url "http://www.example.com/" = some "http://example.com" ∧
     normalize_url "http://h/a;b" = some "http://h/a" ∧
     normalize_url "http://h/a;b/" = some "http://h/a;b") ∧
    (∀ sch host t : List Char, (sch = "http".data ∨ sch = "https".data) →
      (∀ c ∈ host, isHostChar c = true) →
      "www.".data.isPrefixOf (lowerL host) = false →
      (∀ c ∈ t, isCleanChar c = true) →
      (∀ c, t.head? = some c → isNetlocDelim c = true) →
      normalizeList (sch ++ "://".data ++ ("www.".data ++ host ++ t)) =
        normalizeList (sch ++ "://".data ++ (host ++ t))) ∧
    (∀ l : List Char, l ≠ [] → l ≠ "http:/".data → l ≠ "https:/".data →
      l.contains ';' = false →
      normalizeList (l ++ ['/']) = normalizeList l) := by
  refine ⟨⟨by decide, by decide, by decide, by decide, by decide, by decide, by decide⟩,
    normalize_www_core, ?_⟩
  intro l hne hh1 hh2 hsemi
  by_cases hp1 : httpSlashes.isPrefixOf l = true
  · obtain ⟨t, rfl⟩ := List.isPrefixOf_iff_prefix.mp hp1
    have hst : t.contains ';' = false := by
      rw [contains_eq_decide_mem]
      simp only [decide_eq_false_iff_not]
      intro hm
      have hx := contains_iff_mem.mpr (List.mem_append_right httpSlashes hm)
      rw [hsemi] at hx
      exact Bool.noConfusion hx
    have hcore : normalizeList (httpSlashes ++ (t ++ ['/'])) =
        normalizeList (httpSlashes ++ t) :=
      normalize_trailing_core "http".data t (Or.inl rfl) hst
    rw [← List.append_assoc] at hcore
    exact hcore
  · by_cases hp2 : httpsSlashes.isPrefixOf l = true
    · obtain ⟨t, rfl⟩ := List.isPrefixOf_iff_prefix.mp hp2
      have hst : t.contains ';' = false := by
        rw [contains_eq_decide_mem]
        simp only [decide_eq_false_iff_not]
        intro hm
        have hx := contains_iff_mem.mpr (List.mem_append_right httpsSlashes hm)
        rw [hsemi] at hx
        exact Bool.noConfusion hx
      have hcore : normalizeList (httpsSlashes ++ (t ++ ['/'])) =
          normalizeList (httpsSlashes ++ t) :=
        normalize_trailing_core "https".data t (Or.inr rfl) hst
      rw [← List.append_assoc] at hcore
      exact hcore
    · have hq1 : httpSlashes.isPrefixOf (l ++ ['/']) = false := by
        apply bool_not_true
        intro hcon
        rcases List.prefix_concat_iff.mp (List.isPrefixOf_iff_prefix.mp hcon) with hcase | hcase
        · apply hh1
          have hd := congrArg List.dropLast hcase
          rw [List.dropLast_concat] at hd
          exact hd.symm.trans (by decide)
        · exact hp1 (List.isPrefixOf_iff_prefix.mpr hcase)
      have hq2 : httpsSlashes.isPrefixOf (l ++ ['/']) = false := by
        apply bool_not_true
        intro hcon
        rcases List.prefix_concat_iff.mp (List.isPrefixOf_iff_prefix.mp hcon) with hcase | hcase
        · apply hh2
          have hd := congrArg List.dropLast hcase
          rw [List.dropLast_concat] at hd
          exact hd.symm.trans (by decide)
        · exact hp2 (List.isPrefixOf_iff_prefix.mpr hcase)
      have hne' : l ++ ['/'] ≠ [] := by simp
      rw [normalizeList_prepend (l ++ ['/']) hq1 hq2 hne',
        normalizeList_prepend l (bool_not_true hp1) (bool_not_true hp2) hne,
        ← List.append_assoc]
      have hcore : normalizeList ((httpsSlashes ++ l) ++ ['/']) =
          normalizeList (httpsSlashes ++ l) := by
        rw [List.append_assoc]
        exact normalize_trailing_core "https".data l (Or.inr rfl) hsemi
      exact hcore

/-- C1 (witness): the amended equivalences applied at concrete inputs. -/
theorem C1_witness :
    normalizeList ("https".data ++ "://".data ++
        ("www.".data ++ "blog.example".data ++ "/a".data)) =
      normalizeList ("https".data ++ "://".data ++ ("blog.example".data ++ "/a".data)) ∧
    normalizeList ("example.com".data ++ ['/']) = normalizeList "example.com".data :=
  ⟨C1_equivalence_amended.2.1 "https".data "blog.example".data "/a".data (Or.inr rfl)
      (by decide) (by decide) (by decide)
      (by
        intro c hc
        have hc' : some '/' = some c := hc
        injection hc' with h
        subst h
        rfl),
   C1_equivalence_amended.2.2 "example.com".data (by decide) (by decide) (by decide)
     (by decide)⟩

/-- C6 (counterexample): normalization strips only one leading `www.` per
call, so `"www.www.example.com"` normalizes to `https://www.example.com`,
which normalizes again to `https://example.com`; and stripping the trailing
slash of `"http://h/a;b/"` produces the key `http://h/a;b`, whose now-exposed
`;b` params suffix the second call cuts to `http://h/a` — normalization is
not idempotent. -/
theorem C6_counterexample :
    (normalize_url "www.www.example.com").bind normalize_url ≠
      normalize_url "www.www.example.com" ∧
    (normalize_url "http://h/a;b/").bind normalize_url ≠
      normalize_url "http://h/a;b/" := by decide

/-- C6 (amended): normalize_url is idempotent on every input whose produced
key's host does not still start with `www.` (equivalently, whose original
host does not stack several `www.` prefixes) and whose produced key contains
no `;` (otherwise the trailing-slash strip can expose a `;params` suffix in
the key's last path segment, which the second call's `urlparse` removes). -/
theorem C6_idempotent_amended (s k : String) (h : normalize_url s = some k)
    (hw : "www.".data.isPrefixOf (keyHost k.data) = false)
    (hsemi : k.data.contains ';' = false) :
    normalize_url k = some k := by
  rw [normalize_url] at h
  obtain ⟨l, hl, hlk⟩ := Option.map_eq_some'.mp h
  have hld : l = k.data := by
    have hx := congrArg String.data hlk
    simpa using hx
  subst hld
  have hcore := normalizeList_idem_core hl hw hsemi
  rw [normalize_url, hcore]
  rfl

/-- C6 (witness): the amended idempotence applied at a concrete input. -/
theorem C6_witness :
    normalize_url "http://blog.example.com/posts" = some "http://blog.example.com/posts" :=
  C6_idempotent_amended "http://Blog.Example.com/posts/" "http://blog.example.com/posts"
    (by decide) (by decide) (by decide)

/-- C7 (counterexample): the spec claims `normalize_url` never throws, but
CPython's `urlsplit` raises `ValueError("Invalid IPv6 URL")` whenever the
netloc contains `[` without `]`, so `normalize_url "["` raises (modelled as
`none`). -/
theorem C7_counterexample : normalize_url "[" = none := rfl

/-- C7 (amended): normalize_url returns the empty key exactly for the empty
input, and returns some key for every ALL-ASCII input containing no square
bracket; it is not total: an unbalanced bracket in the host position raises
`ValueError("Invalid IPv6 URL")` (modelled as `none`), and CPython's
`_checknetloc` can additionally raise for a netloc containing non-ASCII
characters whose NFKC normalization introduces one of `/?#@:` (for example
`"http://a＃b"` with a fullwidth number sign).  `_checknetloc` returns
immediately for an ASCII netloc, which the all-ASCII hypothesis guarantees;
its NFKC path is outside this embedding, so totality is claimed only where
that path provably cannot fire. -/
theorem C7_total_amended :
    normalize_url "" = some "" ∧
    (∀ s : String, (∀ c ∈ s.data, c.toNat < 128) →
      (∀ c ∈ s.data, c ≠ '[' ∧ c ≠ ']') →
      (normalize_url s).isSome = true) ∧
    (∀ s : String, s ≠ "" → normalize_url s ≠ some "") := by
  refine ⟨rfl, ?_, ?_⟩
  · intro s hascii hs
    have h := normalizeList_isSome_of_no_brackets s.data hs
    rw [normalize_url]
    cases hx : normalizeList s.data with
    | none =>
        rw [hx] at h
        simp at h
    | some l => rfl
  · intro s hs hcon
    rw [normalize_url] at hcon
    obtain ⟨l, hl, hlk⟩ := Option.map_eq_some'.mp hcon
    have hdata : l = [] := by
      have hx := congrArg String.data hlk
      simpa using hx
    subst hdata
    rcases normalizeList_shape hl with ⟨h1, _⟩ | ⟨sch, host, path, hsch, hk, _⟩
    · exact hs (String.ext h1)
    · have hnn : sch ++ "://".data ++ host ++ path ≠ [] := by
        rcases hsch with rfl | rfl <;> simp
      exact hnn hk.symm

/-- C7 (witness): the amended totality applied at concrete inputs. -/
theorem C7_witness : (normalize_url "abc").isSome = true ∧ normalize_url "x" ≠ some "" :=
  ⟨C7_total_amended.2.1 "abc" (by decide) (by decide), C7_total_amended.2.2 "x" (by decide)⟩

/-! ### Lemmas about the frontier queue -/

theorem addLoop_mem {seen : List String} :
    ∀ (urls : List String) (cur acc : List String),
      addLoop seen cur urls = some acc →
      ∀ k, k ∈ acc ↔ ((∃ u ∈ urls, normalize_url u = some k) ∧
        k ≠ "" ∧ k ∉ seen ∧ k ∉ cur) := by
  intro urls
  induction urls with
  | nil =>
      intro cur acc h k
      rw [addLoop] at h
      rw [← Option.some.inj h]
      simp
  | cons url rest ih =>
      intro cur acc h k
      rw [addLoop] at h
      cases hn : normalize_url url with
      | none => rw [hn] at h; exact absurd h (by simp)
      | some n =>
          rw [hn] at h
          replace h : (if n ≠ "" ∧ n ∉ seen ∧ n ∉ cur then
              Option.map (fun tail => n :: tail) (addLoop seen (n :: cur) rest)
            else addLoop seen cur rest) = some acc := h
          by_cases hcond : n ≠ "" ∧ n ∉ seen ∧ n ∉ cur
          · rw [if_pos hcond] at h
            obtain ⟨tail, htail, hacc⟩ := Option.map_eq_some'.mp h
            rw [← hacc]
            obtain ⟨hne, hseen, hcur⟩ := hcond
            have iH := ih (n :: cur) tail htail k
            constructor
            · intro hk
              rcases List.mem_cons.mp hk with rfl | hk2
              · exact ⟨⟨url, List.mem_cons_self _ _, hn⟩, hne, hseen, hcur⟩
              · obtain ⟨⟨u, hu, hnu⟩, h1, h2, h3⟩ := iH.mp hk2
                exact ⟨⟨u, List.mem_cons_of_mem _ hu, hnu⟩, h1, h2,
                  fun hc => h3 (List.mem_cons_of_mem _ hc)⟩
            · rintro ⟨⟨u, hu, hnu⟩, h1, h2, h3⟩
              rcases List.mem_cons.mp hu with rfl | hu2
              · have hk := Option.some.inj (hn.symm.trans hnu)
                rw [← hk]
                exact List.mem_cons_self _ _
              · by_cases hkn : k = n
                · rw [hkn]
                  exact List.mem_cons_self _ _
                · have hkc : k ∉ n :: cur := by
                    intro hc
                    rcases List.mem_cons.mp hc with hc | hc
                    · exact hkn hc
                    · exact h3 hc
                  exact List.mem_cons_of_mem _ (iH.mpr ⟨⟨u, hu2, hnu⟩, h1, h2, hkc⟩)
          · rw [if_neg hcond] at h
            have iH := ih cur acc h k
            rw [iH]
            constructor
            · rintro ⟨⟨u, hu, hnu⟩, h1, h2, h3⟩
              exact ⟨⟨u, List.mem_cons_of_mem _ hu, hnu⟩, h1, h2, h3⟩
            · rintro ⟨⟨u, hu, hnu⟩, h1, h2, h3⟩
              rcases List.mem_cons.mp hu with rfl | hu2
              · have hk := Option.some.inj (hn.symm.trans hnu)
                rw [← hk] at h1 h2 h3
                exact absurd ⟨h1, h2, h3⟩ hcond
              · exact ⟨⟨u, hu2, hnu⟩, h1, h2, h3⟩

theorem addLoop_nodup {seen : List String} :
    ∀ (urls : List String) (cur acc : List String),
      addLoop seen cur urls = some acc → acc.Nodup := by
  intro urls
  induction urls with
  | nil =>
      intro cur acc h
      rw [addLoop] at h
      rw [← Option.some.inj h]
      exact List.nodup_nil
  | cons url rest ih =>
      intro cur acc h
      rw [addLoop] at h
      cases hn : normalize_url url with
      | none => rw [hn] at h; exact absurd h (by simp)
      | some n =>
          rw [hn] at h
          replace h : (if n ≠ "" ∧ n ∉ seen ∧ n ∉ cur then
              Option.map (fun tail => n :: tail) (addLoop seen (n :: cur) rest)
            else addLoop seen cur rest) = some acc := h
          by_cases hcond : n ≠ "" ∧ n ∉ seen ∧ n ∉ cur
          · rw [if_pos hcond] at h
            obtain ⟨tail, htail, hacc⟩ := Option.map_eq_some'.mp h
            rw [← hacc]
            refine List.nodup_cons.mpr ⟨?_, ih (n :: cur) tail htail⟩
            intro hc
            have := (addLoop_mem rest (n :: cur) tail htail n).mp hc
            exact this.2.2.2 (List.mem_cons_self _ _)
          · rw [if_neg hcond] at h
            exact ih cur acc h

/-! ### Claim C4: the frontier queue -/

/-- C4 (counterexample): the claim omits the truthiness filter — an input that
normalizes to the empty string (here `""`) is discarded by `add_to_queue`
even though it is neither seen, nor queued, nor duplicated, so the accepted
subset is not "exactly those normalized keys that are neither in the seen set
nor already present in the queue nor duplicated earlier". -/
theorem C4_counterexample :
    (add_to_queue [] [] [""]).map Prod.snd ≠ enqueueAcceptedSpec [] [] [""] := by decide

/-- C4 (amended): `add_to_queue` appends exactly the accepted subset, which
consists of exactly those normalized keys that are non-empty, unseen, not
already queued, and not duplicated earlier in the input (the accepted list is
duplicate-free); consequently, for a fresh URL whose key is non-empty and
unseen, calling it twice starting from a duplicate-free queue leaves that key
in the queue exactly once. -/
theorem C4_enqueue_amended :
    (∀ seen queue urls q2 acc, add_to_queue seen queue urls = some (q2, acc) →
      q2 = queue ++ acc ∧ acc.Nodup ∧
      (∀ k, k ∈ acc ↔ ((∃ u ∈ urls, normalize_url u = some k) ∧
        k ≠ "" ∧ k ∉ seen ∧ k ∉ queue))) ∧
    (∀ seen queue u k q1 a1 q2 a2,
      normalize_url u = some k → k ≠ "" → k ∉ seen → queue.Nodup →
      add_to_queue seen queue [u] = some (q1, a1) →
      add_to_queue seen q1 [u] = some (q2, a2) →
      q2.count k = 1) := by
  constructor
  · intro seen queue urls q2 acc h
    rw [add_to_queue] at h
    obtain ⟨nu, hnu, hmap⟩ := Option.map_eq_some'.mp h
    have hq2 : queue ++ nu = q2 := congrArg Prod.fst hmap
    have hacc : nu = acc := congrArg Prod.snd hmap
    subst hacc
    exact ⟨hq2.symm, addLoop_nodup urls queue nu hnu, addLoop_mem urls queue nu hnu⟩
  · intro seen queue u k q1 a1 q2 a2 hk hne hseen hnd h1 h2
    have heval : ∀ cur : List String, addLoop seen cur [u] =
        (if k ≠ "" ∧ k ∉ seen ∧ k ∉ cur then some [k] else some []) := by
      intro cur
      rw [addLoop, hk]
      show (if k ≠ "" ∧ k ∉ seen ∧ k ∉ cur then
          (addLoop seen (k :: cur) []).map (fun tail => k :: tail)
        else addLoop seen cur []) =
        (if k ≠ "" ∧ k ∉ seen ∧ k ∉ cur then some [k] else some [])
      by_cases hc : k ≠ "" ∧ k ∉ seen ∧ k ∉ cur
      · rw [if_pos hc, if_pos hc]
        rfl
      · rw [if_neg hc, if_neg hc]
        rfl
    rw [add_to_queue, heval queue] at h1
    rw [add_to_queue, heval q1] at h2
    by_cases hq : k ∈ queue
    · rw [if_neg (by simp [hq])] at h1
      have h1' : (queue ++ [], ([] : List String)) = (q1, a1) := Option.some.inj h1
      have hq1 : queue ++ [] = q1 := congrArg Prod.fst h1'
      rw [List.append_nil] at hq1
      subst hq1
      rw [if_neg (by simp [hq])] at h2
      have h2' : (queue ++ [], ([] : List String)) = (q2, a2) := Option.some.inj h2
      have hq2 : queue ++ [] = q2 := congrArg Prod.fst h2'
      rw [List.append_nil] at hq2
      rw [← hq2]
      exact List.count_eq_one_of_mem hnd hq
    · rw [if_pos ⟨hne, hseen, hq⟩] at h1
      have h1' : (queue ++ [k], [k]) = (q1, a1) := Option.some.inj h1
      have hq1 : queue ++ [k] = q1 := congrArg Prod.fst h1'
      have hkq1 : k ∈ q1 := by
        rw [← hq1]
        exact List.mem_append_right _ (List.mem_cons_self _ _)
      rw [if_neg (by simp [hkq1])] at h2
      have h2' : (q1 ++ [], ([] : List String)) = (q2, a2) := Option.some.inj h2
      have hq2 : q1 ++ [] = q2 := congrArg Prod.fst h2'
      rw [List.append_nil] at hq2
      rw [← hq2, ← hq1, List.count_append, List.count_eq_zero.mpr hq]
      simp

/-- C4 (witness): the amended enqueue behaviour at concrete inputs — a fresh
URL enqueued twice ends up in the queue exactly once, and a batch with a
duplicate, a seen URL and an empty input accepts exactly the fresh key. -/
theorem C4_witness :
    (["https://a.example"] : List String).count "https://a.example" = 1 ∧
    (["https://q.example", "https://a.example"] =
        ["https://q.example"] ++ ["https://a.example"] ∧
      (["https://a.example"] : List String).Nodup ∧
      (∀ k, k ∈ (["https://a.example"] : List String) ↔
        ((∃ u ∈ ["a.example", "a.example", "s.example", ""],
            normalize_url u = some k) ∧
          k ≠ "" ∧ k ∉ ["https://s.example"] ∧ k ∉ ["https://q.example"]))) :=
  ⟨C4_enqueue_amended.2 [] [] "a.example" "https://a.example" ["https://a.example"]
      ["https://a.example"] ["https://a.example"] [] (by decide) (by decide) (by decide)
      (by decide) (by decide) (by decide),
   C4_enqueue_amended.1 ["https://s.example"] ["https://q.example"]
      ["a.example", "a.example", "s.example", ""]
      ["https://q.example", "https://a.example"] ["https://a.example"] (by decide)⟩

/-! ### Claim C2: the fetcher's retry discipline -/

/-- Unrolling the two-attempt loop of `scraper.fetch_url`. -/
theorem fetch_url_eval (net : Nat → FetchOutcome) :
    fetch_url net =
      (match net 0 with
       | .ok body => FetchResult.success body
       | _ =>
         match net 1 with
         | .ok body => FetchResult.success body
         | e => FetchResult.failure e.errMsg) := rfl

/-- C2 (counterexample): an HTTP 404 on the first attempt does not terminate
as a failure — `raise_for_status`'s `HTTPError` is a `RequestException`, so
the except clause catches it and retries, and a second attempt that succeeds
makes the fetch succeed. -/
theorem C2_counterexample :
    net404 0 = FetchOutcome.httpError 404 "404 Client Error: Not Found" ∧
    fetch_url net404 = FetchResult.success "<html>recovered</html>" := ⟨rfl, rfl⟩

/-- C2 (amended): `scraper.fetch_url` makes up to 2 attempts and retries after
any `RequestException` — transport errors and HTTP 4xx/5xx errors alike — with
a fixed 1s backoff, succeeding iff some attempt succeeds and otherwise failing
with the final attempt's error; `fast_scraper.fetch_url` performs exactly one
attempt and never retries anything. -/
theorem C2_retry_amended :
    (∀ (net : Nat → FetchOutcome) (b : String), net 0 = .ok b →
      fetch_url net = .success b) ∧
    (∀ net : Nat → FetchOutcome, (net 0).isOk = false →
      ∀ b, net 1 = .ok b → fetch_url net = .success b) ∧
    (∀ net : Nat → FetchOutcome, (net 0).isOk = false → (net 1).isOk = false →
      fetch_url net = .failure (net 1).errMsg) ∧
    (∀ (net : Nat → FetchOutcome) (b : String), net 0 = .ok b →
      fast_fetch_url net = .success b) ∧
    (∀ net : Nat → FetchOutcome, (net 0).isOk = false →
      fast_fetch_url net = .failure (net 0).errMsg) := by
  refine ⟨?_, ?_, ?_, ?_, ?_⟩
  · intro net b h
    rw [fetch_url_eval, h]
  · intro net h0 b h1
    rw [fetch_url_eval]
    cases hn0 : net 0 with
    | ok body =>
        rw [hn0] at h0
        simp [FetchOutcome.isOk] at h0
    | connError m => rw [h1]
    | timeout m => rw [h1]
    | httpError s m => rw [h1]
  · intro net h0 h1
    rw [fetch_url_eval]
    cases hn0 : net 0 with
    | ok body =>
        rw [hn0] at h0
        simp [FetchOutcome.isOk] at h0
    | connError m =>
        cases hn1 : net 1 with
        | ok body =>
            rw [hn1] at h1
            simp [FetchOutcome.isOk] at h1
        | connError m2 => rfl
        | timeout m2 => rfl
        | httpError s2 m2 => rfl
    | timeout m =>
        cases hn1 : net 1 with
        | ok body =>
            rw [hn1] at h1
            simp [FetchOutcome.isOk] at h1
        | connError m2 => rfl
        | timeout m2 => rfl
        | httpError s2 m2 => rfl
    | httpError s m =>
        cases hn1 : net 1 with
        | ok body =>
            rw [hn1] at h1
            simp [FetchOutcome.isOk] at h1
        | connError m2 => rfl
        | timeout m2 => rfl
        | httpError s2 m2 => rfl
  · intro net b h
    rw [fast_fetch_url, h]
  · intro net h0
    rw [fast_fetch_url]
    cases hn0 : net 0 with
    | ok body =>
        rw [hn0] at h0
        simp [FetchOutcome.isOk] at h0
    | connError m => rfl
    | timeout m => rfl
    | httpError s m => rfl

/-- C2 (witness): the amended retry behaviour at concrete networks. -/
theorem C2_witness :
    fetch_url netFail = FetchResult.failure "conn1" ∧
    fast_fetch_url netFail = FetchResult.failure "conn0" ∧
    fetch_url net404 = FetchResult.success "<html>recovered</html>" :=
  ⟨C2_retry_amended.2.2.1 netFail (by decide) (by decide),
   C2_retry_amended.2.2.2.2 netFail (by decide),
   C2_retry_amended.2.1 net404 (by decide) "<html>recovered</html>" (by decide)⟩

/-! ### Claim C5: the deduplication merge policy -/

/-- C5 (counterexample): both merge policies are wholesale-replacement
cascades, not per-field merges; when the SSG branch fires, a failed, nameless
record replaces a complete, named one — the merged record does not keep the
"complete" status even though one input had it. -/
theorem C5_counterexample :
    (mergeBlog ⟨"https://k.example", "A", "unknown", "complete"⟩
        ⟨"https://k.example", "", "hexo", "failed"⟩).scrape_status = "failed" ∧
    (mergeBlogData ⟨"https://k.example", "A", "unknown", "complete"⟩
        ⟨"https://k.example", "", "hexo", "failed"⟩).scrape_status = "failed" := by decide

/-- C5 (amended): the duplicate-key merge selects one of the two records
wholesale, by an ordered cascade (status upgrade first, then — in
`deduplicate.py` only — name presence, then SSG-known-ness); merging a prior
failed record with a new complete record does yield the new record (its whole
contents), but there is no per-field-group combination, and a later-priority
branch can replace a complete named record with a failed nameless one. -/
theorem C5_merge_amended :
    (∀ e b : BlogRec, mergeBlog e b = e ∨ mergeBlog e b = b) ∧
    (∀ e b : BlogRec, mergeBlogData e b = e ∨ mergeBlogData e b = b) ∧
    (∀ e b : BlogRec, e.scrape_status = "failed" → b.scrape_status = "complete" →
      mergeBlog e b = b) ∧
    (∀ e b : BlogRec, e.scrape_status ≠ "complete" → b.scrape_status = "complete" →
      mergeBlogData e b = b) ∧
    deduplicate_blogs [failedRecK, completeRecK] =
      some [("https://k.example", completeRecK)] ∧
    dedupe_blogs [failedRecK, completeRecK] =
      some [("https://k.example", completeRecK)] := by
  refine ⟨?_, ?_, ?_, ?_, by decide, by decide⟩
  · intro e b
    unfold mergeBlog
    split_ifs <;> simp
  · intro e b
    unfold mergeBlogData
    split_ifs <;> simp
  · intro e b h1 h2
    rw [mergeBlog, if_pos ⟨h1, h2⟩]
  · intro e b h1 h2
    rw [mergeBlogData, if_pos ⟨h2, h1⟩]

/-- C5 (witness): the amended merge policy at the concrete failed/complete
records. -/
theorem C5_witness :
    mergeBlog failedRecK completeRecK = completeRecK ∧
    mergeBlogData failedRecK completeRecK = completeRecK :=
  ⟨C5_merge_amended.2.2.1 failedRecK completeRecK (by decide) (by decide),
   C5_merge_amended.2.2.2.1 failedRecK completeRecK (by decide) (by decide)⟩

/-! ### C3: first-match semantics of `detect_ssg` -/

/-- The table loop of `detect_ssg` either falls through to `"unknown"` with no
entry matching, or returns the name of the first matching entry. -/
theorem detectSSGGo_cases (gen html : List Char) :
    ∀ table : List (String × SSGPat),
      (detectSSGGo gen html table = "unknown" ∧
        ∀ p ∈ table, ssgMatches gen html p.2 = false) ∨
      (∃ pre name pat post, table = pre ++ (name, pat) :: post ∧
        detectSSGGo gen html table = name ∧
        ssgMatches gen html pat = true ∧
        ∀ p ∈ pre, ssgMatches gen html p.2 = false) := by
  intro table
  induction table with
  | nil => exact Or.inl ⟨rfl, by simp⟩
  | cons hd rest ih =>
      obtain ⟨name, pat⟩ := hd
      by_cases hm : ssgMatches gen html pat = true
      · right
        refine ⟨[], name, pat, rest, rfl, ?_, hm, by simp⟩
        rw [detectSSGGo]
        by_cases hm1 : pat.meta.any (fun r => reTest r gen) = true
        · rw [if_pos hm1]
        · rw [if_neg hm1]
          have hm2 : pat.html.any (fun r => reTest r html) = true := by
            rw [ssgMatches, Bool.or_eq_true] at hm
            rcases hm with h | h
            · exact absurd h hm1
            · exact h
          rw [if_pos hm2]
      · have hm1 : pat.meta.any (fun r => reTest r gen) = false := by
          apply bool_not_true
          intro h1
          exact hm (by rw [ssgMatches, h1, Bool.true_or])
        have hm2 : pat.html.any (fun r => reTest r html) = false := by
          apply bool_not_true
          intro h2
          exact hm (by rw [ssgMatches, h2, Bool.or_true])
        have hstep : detectSSGGo gen html ((name, pat) :: rest) =
            detectSSGGo gen html rest := by
          rw [detectSSGGo, if_neg (by simp [hm1]), if_neg (by simp [hm2])]
        rcases ih with ⟨h1, h2⟩ | ⟨pre, nm, pt, post, heq, hval, hmt, hpre⟩
        · left
          refine ⟨by rw [hstep]; exact h1, ?_⟩
          intro p hp
          rcases List.mem_cons.mp hp with rfl | hp2
          · exact bool_not_true hm
          · exact h2 p hp2
        · right
          refine ⟨(name, pat) :: pre, nm, pt, post, by rw [heq]; rfl, ?_, hmt, ?_⟩
          · rw [hstep]
            exact hval
          · intro p hp
            rcases List.mem_cons.mp hp with rfl | hp2
            · exact bool_not_true hm
            · exact hpre p hp2

/-- C3 (counterexample): on `html0` the generator meta tag says Hugo and
hugo's meta pattern matches the extracted generator string, yet `detect_ssg`
returns `"hexo"`: the loop interleaves meta and body checks per table entry
instead of checking all meta patterns before any body signature, so the
earlier entry's body signature beats the later entry's meta match. -/
theorem C3_counterexample :
    detect_ssg html0 = "hexo" ∧
    extract_generator html0.data = "Hugo".data ∧
    (SSG_PATTERNS.any fun p => p.1 == "hugo" &&
      p.2.meta.any (fun r => reTest r (extract_generator html0.data))) = true := by
  refine ⟨rfl, rfl, rfl⟩

/-- C3 (amended): `detect_ssg` scans the table in its fixed order but checks
each entry's meta patterns AND body signatures inside the same iteration: it
returns `"unknown"` exactly when no entry matches at all, and otherwise the
name of the first entry any of whose meta patterns matches the extracted
generator string or any of whose body signatures matches the page; there is no
global meta-first pass, so a later entry's meta match cannot beat an earlier
entry's body signature. -/
theorem C3_detect_ssg_amended (html : String) :
    (detect_ssg html = "unknown" ∧
      ∀ p ∈ SSG_PATTERNS,
        ssgMatches (extract_generator html.data) html.data p.2 = false) ∨
    (∃ pre name pat post, SSG_PATTERNS = pre ++ (name, pat) :: post ∧
      detect_ssg html = name ∧
      ssgMatches (extract_generator html.data) html.data pat = true ∧
      ∀ p ∈ pre, ssgMatches (extract_generator html.data) html.data p.2 = false) :=
  detectSSGGo_cases (extract_generator html.data) html.data SSG_PATTERNS

/-! ### C8: the comment-system sentinel -/

/-- C8 (counterexample): on a page with a generic comment marker but no known
platform signature, `detect_comment_system` returns type `"unknown"`, not the
spec's `"unknown-present"`. -/
theorem C8_counterexample :
    (detect_comment_system html1).type = "unknown" ∧
    (detect_comment_system html1).type ≠ "unknown-present" ∧
    reTest genericCommentPat html1.data = true ∧
    detectCommentGo html1.data COMMENT_PATTERNS = none := by
  refine ⟨rfl, by decide, rfl, rfl⟩

/-- C8 (amended): when no platform signature matches, the classifier does
distinguish marker-present from marker-absent pages, but the sentinel for the
former is the string `"unknown"` (the spec's `"unknown-present"` is never
produced): type is `"unknown"` iff a generic comment marker (`comment`, 评论,
留言) is present and `"none"` iff none is. -/
theorem C8_comment_amended (html : String)
    (hns : detectCommentGo html.data COMMENT_PATTERNS = none) :
    ((detect_comment_system html).type = "unknown" ↔
      reTest genericCommentPat html.data = true) ∧
    ((detect_comment_system html).type = "none" ↔
      reTest genericCommentPat html.data = false) ∧
    (detect_comment_system html).type ≠ "unknown-present" := by
  have hred : detect_comment_system html =
      (if reTest genericCommentPat html.data then ⟨"unknown", none, none⟩
       else ⟨"none", none, none⟩) := by
    unfold detect_comment_system
    rw [hns]
  rw [hred]
  by_cases hg : reTest genericCommentPat html.data = true
  · rw [if_pos hg]
    refine ⟨by simp [hg], by simp [hg], by decide⟩
  · have hg2 : reTest genericCommentPat html.data = false := bool_not_true hg
    rw [if_neg hg]
    refine ⟨by simp [hg2], by simp [hg2], by decide⟩

/-- C8 (witness): the amended sentinel behaviour at the concrete marker-only
page `html1`. -/
theorem C8_witness :
    ((detect_comment_system html1).type = "unknown" ↔
      reTest genericCommentPat html1.data = true) ∧
    ((detect_comment_system html1).type = "none" ↔
      reTest genericCommentPat html1.data = false) ∧
    (detect_comment_system html1).type ≠ "unknown-present" :=
  C8_comment_amended html1 (by decide)

/-! ### C10: `count_articles` -/

/-- The pattern-match dedup loop counts the distinct not-yet-seen items. -/
theorem postLoop_eq_length :
    ∀ (items seen : List (List Char)) (c : Nat),
      postLoop items seen c = c + (setDedup items seen).length := by
  intro items
  induction items with
  | nil => intro seen c; rfl
  | cons m rest ih =>
      intro seen c
      by_cases hm : m ∈ seen
      · rw [postLoop, setDedup, if_pos hm, if_pos hm]
        exact ih seen c
      · rw [postLoop, setDedup, if_neg hm, if_neg hm]
        rw [ih (m :: seen) (c + 1), List.length_cons]
        omega

/-- The explicit-count loop computes the maximum of the running count and the
best matching explicit claim. -/
theorem explicitLoop_eq_max (html : List Char) :
    ∀ (qs : List Reg) (c : Nat), explicitLoop html qs c =
      max c ((qs.filterMap
        (fun q => (reFind q html).map
          (fun x => toNatDigits (reGroup 1 x.2.2)))).foldr max 0) := by
  intro qs
  induction qs with
  | nil => intro c; simp [explicitLoop]
  | cons q rest ih =>
      intro c
      cases hf : reFind q html with
      | none =>
          have h1 : explicitLoop html (q :: rest) c = explicitLoop html rest c := by
            rw [explicitLoop, hf]
          rw [h1, ih c, List.filterMap_cons_none (by simp [hf])]
      | some x =>
          have h1 : explicitLoop html (q :: rest) c = explicitLoop html rest
              (if toNatDigits (reGroup 1 x.2.2) > c then toNatDigits (reGroup 1 x.2.2)
               else c) := by
            rw [explicitLoop, hf]
          have hlist : List.filterMap
              (fun q => Option.map (fun y => toNatDigits (reGroup 1 y.2.2)) (reFind q html))
              (q :: rest) =
              toNatDigits (reGroup 1 x.2.2) :: List.filterMap
                (fun q => Option.map (fun y => toNatDigits (reGroup 1 y.2.2)) (reFind q html))
                rest := by
            simp only [List.filterMap_cons, hf]
            rfl
          rw [h1, ih, hlist, List.foldr_cons]
          by_cases hvc : toNatDigits (reGroup 1 x.2.2) > c
          · rw [if_pos hvc]
            omega
          · rw [if_neg hvc]
            omega

/-- C10: `count_articles` returns `none` exactly when both strategies come up
empty (no post-pattern match and no explicit textual claim), and otherwise
`some` of the larger of the distinct-match count and the best explicit claim —
a strictly positive number, so it never returns 0. -/
theorem C10_count_articles (html base : String) :
    (∀ n, count_articles html base = some n →
      0 < n ∧ n = max (patCountSpec html.data) (explicitBest html.data)) ∧
    (count_articles html base = none ↔
      patCountSpec html.data = 0 ∧ explicitBest html.data = 0) := by
  have hca : count_articles html base =
      (if max (patCountSpec html.data) (explicitBest html.data) > 0
       then some (max (patCountSpec html.data) (explicitBest html.data)) else none) := by
    show (if explicitLoop html.data COUNT_PATTERNS
              (postLoop (postItems html.data) [] 0) > 0
          then some (explicitLoop html.data COUNT_PATTERNS
              (postLoop (postItems html.data) [] 0))
          else none) = _
    rw [postLoop_eq_length (postItems html.data) [] 0, Nat.zero_add,
      explicitLoop_eq_max html.data COUNT_PATTERNS]
    rfl
  constructor
  · intro n h
    rw [hca] at h
    by_cases hm : max (patCountSpec html.data) (explicitBest html.data) > 0
    · rw [if_pos hm] at h
      have h2 := Option.some.inj h
      constructor
      · omega
      · omega
    · rw [if_neg hm] at h
      exact absurd h (by simp)
  · rw [hca]
    by_cases hm : max (patCountSpec html.data) (explicitBest html.data) > 0
    · rw [if_pos hm]
      constructor
      · intro h
        exact absurd h (by simp)
      · intro h
        exact absurd hm (by omega)
    · rw [if_neg hm]
      constructor
      · intro _
        omega
      · intro _
        rfl

/-- C10 (witness): a page with one post-like link and the claim "5 posts"
gets `some 5`, the larger of the two strictly positive counts. -/
theorem C10_witness :
    0 < 5 ∧ 5 = max (patCountSpec html2.data) (explicitBest html2.data) :=
  (C10_count_articles html2 "").1 5 (by decide)

/-! ### C9: `extract_friend_links` -/

/-- Membership in the deduplicated list implies membership in the input. -/
theorem setDedup_mem :
    ∀ (l seen : List (List Char)) (u : List Char),
      u ∈ setDedup l seen → u ∈ l := by
  intro l
  induction l with
  | nil => intro seen u h; exact absurd h (by simp [setDedup])
  | cons x rest ih =>
      intro seen u h
      rw [setDedup] at h
      by_cases hx : x ∈ seen
      · rw [if_pos hx] at h
        exact List.mem_cons_of_mem x (ih seen u h)
      · rw [if_neg hx] at h
        rcases List.mem_cons.mp h with rfl | h2
        · exact List.mem_cons_self u rest
        · exact List.mem_cons_of_mem x (ih (x :: seen) u h2)

/-- The deduplicated list avoids the seen set. -/
theorem setDedup_not_seen :
    ∀ (l seen : List (List Char)) (u : List Char),
      u ∈ setDedup l seen → u ∉ seen := by
  intro l
  induction l with
  | nil => intro seen u h; exact absurd h (by simp [setDedup])
  | cons x rest ih =>
      intro seen u h
      rw [setDedup] at h
      by_cases hx : x ∈ seen
      · rw [if_pos hx] at h
        exact ih seen u h
      · rw [if_neg hx] at h
        rcases List.mem_cons.mp h with rfl | h2
        · exact hx
        · intro hu
          exact ih (x :: seen) u h2 (List.mem_cons_of_mem x hu)

/-- The deduplicated list is duplicate-free. -/
theorem setDedup_nodup :
    ∀ (l seen : List (List Char)), (setDedup l seen).Nodup := by
  intro l
  induction l with
  | nil => intro seen; rw [setDedup]; exact List.nodup_nil
  | cons x rest ih =>
      intro seen
      rw [setDedup]
      by_cases hx : x ∈ seen
      · rw [if_pos hx]
        exact ih seen
      · rw [if_neg hx]
        refine List.nodup_cons.mpr ⟨?_, ih (x :: seen)⟩
        intro hmem
        exact setDedup_not_seen rest (x :: seen) x hmem (List.mem_cons_self x seen)

/-- Every link kept by the per-href loop passed the blog filter and resolved
to a host different from the base's. -/
theorem eflProcess_mem (base : List Char) :
    ∀ (hrefs links : List (List Char)), eflProcess base hrefs = .ok links →
      ∀ u ∈ links, is_likely_blog_urlL u = .ok true ∧
        ∃ pb pl, urlparsePy [] base = .ok pb ∧ urlparsePy [] u = .ok pl ∧
          pb.netloc ≠ pl.netloc := by
  intro hrefs
  induction hrefs with
  | nil =>
      intro links h u hu
      rw [eflProcess] at h
      replace h := Except.ok.inj h
      rw [← h] at hu
      exact absurd hu (by simp)
  | cons href rest ih =>
      intro links h u hu
      rw [eflProcess] at h
      by_cases hskip : isSkippedHref href = true
      · rw [if_pos hskip] at h
        exact ih links h u hu
      · rw [if_neg hskip] at h
        cases hj : urljoinPy base href with
        | error e =>
            simp only [hj] at h
            exact Except.noConfusion h
        | ok absolute =>
            simp only [hj] at h
            cases hb : is_likely_blog_urlL absolute with
            | error e =>
                simp only [hb] at h
                exact Except.noConfusion h
            | ok okb =>
                simp only [hb] at h
                cases okb with
                | false => exact ih links h u hu
                | true =>
                    cases hpb : urlparsePy [] base with
                    | error e =>
                        simp only [hpb] at h
                        exact Except.noConfusion h
                    | ok pb =>
                        simp only [hpb] at h
                        cases hpl : urlparsePy [] absolute with
                        | error e =>
                            simp only [hpl] at h
                            exact Except.noConfusion h
                        | ok pl =>
                            simp only [hpl] at h
                            by_cases hne : pb.netloc ≠ pl.netloc
                            · rw [if_pos hne] at h
                              cases hrec : eflProcess base rest with
                              | error e =>
                                  simp only [hrec] at h
                                  exact Except.noConfusion h
                              | ok tail =>
                                  simp only [hrec] at h
                                  replace h := Except.ok.inj h
                                  rw [← h] at hu
                                  rcases List.mem_cons.mp hu with rfl | hu2
                                  · exact ⟨hb, pb, pl, rfl, hpl, hne⟩
                                  · rw [← hpb]
                                    exact ih tail hrec u hu2
                            · rw [if_neg hne] at h
                              rw [← hpb]
                              exact ih links h u hu

/-- C9 (counterexample): on the spec's own scenario the returned link keeps
the trailing slash of the raw `href` value — `urljoin` of an absolute URL
returns it unchanged and no normalization is applied — so the result is
`["https://other.example/"]`, not the claimed `["https://other.example"]`. -/
theorem C9_counterexample :
    extract_friend_links friendHtml "https://mine.example" ≠
      Except.ok ["https://other.example"] := by
  intro h
  have hval : extract_friend_links friendHtml "https://mine.example" =
      Except.ok ["https://other.example/"] := rfl
  exact absurd (Except.ok.inj (hval.symm.trans h)) (by decide)

/-- C9 (amended): on the spec scenario `extract_friend_links` returns exactly
`["https://other.example/"]` (the raw absolute href, trailing slash kept); in
general every successfully returned list is duplicate-free and each of its
links passed `is_likely_blog_url` and parsed to a host different from the
base URL's host. -/
theorem C9_extract_amended :
    extract_friend_links friendHtml "https://mine.example" =
      Except.ok ["https://other.example/"] ∧
    ∀ (html base : String) (links : List String),
      extract_friend_links html base = .ok links →
      links.Nodup ∧
      ∀ u ∈ links, is_likely_blog_url u = .ok true ∧
        ∃ pb pl, urlparsePy [] base.data = .ok pb ∧
          urlparsePy [] u.data = .ok pl ∧ pb.netloc ≠ pl.netloc := by
  refine ⟨rfl, ?_⟩
  intro html base links h
  simp only [extract_friend_links] at h
  by_cases hs : ((reFindAll friendSectionPat html.data).map
      (fun x => reGroup 1 x.2)).isEmpty = true
  · rw [if_pos hs] at h
    replace h : (Except.ok ([] : List String) : Except Unit (List String)) =
        .ok links := h
    replace h := Except.ok.inj h
    rw [← h]
    exact ⟨List.nodup_nil, by simp⟩
  · rw [if_neg hs] at h
    cases hefl : eflProcess base.data
        ((((reFindAll friendSectionPat html.data).map
          (fun x => reGroup 1 x.2)).map sectionHrefs).flatten) with
    | error e =>
        simp only [hefl] at h
        exact Except.noConfusion h
    | ok rawlinks =>
        simp only [hefl] at h
        replace h := Except.ok.inj h
        rw [← h]
        constructor
        · refine List.Nodup.map ?_ (setDedup_nodup rawlinks [])
          intro a b hab
          exact congrArg String.data hab
        · intro u hu
          rcases List.mem_map.mp hu with ⟨l0, hl0, rfl⟩
          have hmem := setDedup_mem rawlinks [] l0 hl0
          have hp := eflProcess_mem base.data _ rawlinks hefl l0 hmem
          exact ⟨hp.1, hp.2⟩

/-- C9 (witness): the amended soundness facts at the spec scenario's concrete
input, whose result list is `["https://other.example/"]`. -/
theorem C9_witness :
    (["https://other.example/"] : List String).Nodup ∧
    ∀ u ∈ (["https://other.example/"] : List String),
      is_likely_blog_url u = .ok true ∧
        ∃ pb pl, urlparsePy [] "https://mine.example".data = .ok pb ∧
          urlparsePy [] u.data = .ok pl ∧ pb.netloc ≠ pl.netloc :=
  C9_extract_amended.2 friendHtml "https://mine.example"
    ["https://other.example/"] rfl
